import Mathlib

set_option maxRecDepth 4000

/-
Shallow embedding of the retrieval-and-fusion engine in
app/modules/retrieval_rerank.py (Simple-RAG-back).

Scores are modelled as rationals, Python dictionaries as ordered
association lists, store points as records whose payload content lookup
may fail (a missing key raises in Python), and raising code as
Option/Except values.
-/

/-- Python values stored in metadata dictionaries.  The engine only ever
writes strings, ints, floats and the fixed three-field score-breakdown
dict `{'avg_score': .., 'max_score': .., 'diversity_bonus': ..}`, which
is modelled by its own constructor. -/
inductive PyVal where
  | str : String → PyVal
  | int : Int → PyVal
  | rat : ℚ → PyVal
  | scoreDetails (avgScore maxScore diversityBonus : ℚ) : PyVal
deriving DecidableEq

/-- A Python dict with string keys, as an ordered association list
(insertion order, unique keys maintained by `dictSet`). -/
abbrev PyDict := List (String × PyVal)

/-- Dictionary lookup: first binding of the key. -/
def dictGet : PyDict → String → Option PyVal
  | [], _ => none
  | e :: rest, k => if e.1 = k then some e.2 else dictGet rest k

/-- Dictionary item assignment: replace in place when the key exists
(Python dicts keep the original position), append otherwise. -/
def dictSet : PyDict → String → PyVal → PyDict
  | [], k, v => [(k, v)]
  | e :: rest, k, v =>
      if e.1 = k then (k, v) :: rest else e :: dictSet rest k v

/-- `SearchResult` dataclass (id, content, score, metadata). -/
structure SearchResult where
  id : String
  content : String
  score : ℚ
  metadata : PyDict
deriving DecidableEq

/-- A scored point as returned by the vector store.  `content` is the
`payload['content']` lookup, which can be missing (raises in Python). -/
structure QPoint where
  id : String
  score : ℚ
  content : Option String
  metadata : PyDict
deriving DecidableEq

/-! ### Python's stable sort with `reverse=True` on a rational key -/

/-- Insert `r` in front of the first element whose key is `≤ key r`;
together with `sortDescBy` this reproduces Python's stable
`list.sort(key=..., reverse=True)`. -/
def insertDescBy {α : Type} (key : α → ℚ) (r : α) : List α → List α
  | [] => [r]
  | x :: xs => if key x ≤ key r then r :: x :: xs else x :: insertDescBy key r xs

/-- Stable descending sort by a rational key. -/
def sortDescBy {α : Type} (key : α → ℚ) (l : List α) : List α :=
  l.foldr (insertDescBy key) []

/-- Boolean check that a list is sorted in descending key order. -/
def sortedDescB {α : Type} (key : α → ℚ) : List α → Bool
  | [] => true
  | [_] => true
  | x :: y :: rest => decide (key y ≤ key x) && sortedDescB key (y :: rest)

theorem mem_insertDescBy {α : Type} (key : α → ℚ) (r x : α) (l : List α) :
    x ∈ insertDescBy key r l ↔ x = r ∨ x ∈ l := by
  induction l with
  | nil => simp [insertDescBy]
  | cons y ys ih =>
      by_cases h : key y ≤ key r
      · simp [insertDescBy, h]
      · simp [insertDescBy, h, ih]
        tauto

theorem perm_insertDescBy {α : Type} (key : α → ℚ) (r : α) (l : List α) :
    List.Perm (insertDescBy key r l) (r :: l) := by
  induction l with
  | nil => simp [insertDescBy]
  | cons y ys ih =>
      by_cases h : key y ≤ key r
      · simp [insertDescBy, h]
      · simp only [insertDescBy, h, if_false]
        exact List.Perm.trans (List.Perm.cons y ih) (List.Perm.swap r y ys)

theorem perm_sortDescBy {α : Type} (key : α → ℚ) (l : List α) :
    List.Perm (sortDescBy key l) l := by
  induction l with
  | nil => exact List.Perm.refl _
  | cons y ys ih =>
      exact List.Perm.trans (perm_insertDescBy key y (sortDescBy key ys))
        (List.Perm.cons y ih)

theorem mem_sortDescBy {α : Type} (key : α → ℚ) (x : α) (l : List α) :
    x ∈ sortDescBy key l ↔ x ∈ l :=
  (perm_sortDescBy key l).mem_iff

theorem length_sortDescBy {α : Type} (key : α → ℚ) (l : List α) :
    (sortDescBy key l).length = l.length :=
  (perm_sortDescBy key l).length_eq

theorem sortedDescB_cons {α : Type} (key : α → ℚ) (x : α) (l : List α)
    (hl : sortedDescB key l = true)
    (hx : ∀ y ∈ l.head?, key y ≤ key x) :
    sortedDescB key (x :: l) = true := by
  cases l with
  | nil => rfl
  | cons y ys =>
      have : key y ≤ key x := hx y rfl
      simp [sortedDescB, this, hl]

theorem sortedDescB_insertDescBy {α : Type} (key : α → ℚ) (r : α) (l : List α)
    (hl : sortedDescB key l = true) :
    sortedDescB key (insertDescBy key r l) = true := by
  induction l with
  | nil => rfl
  | cons y ys ih =>
      by_cases h : key y ≤ key r
      · simp [insertDescBy, h, sortedDescB, hl]
      · have hys : sortedDescB key ys = true := by
          cases ys with
          | nil => rfl
          | cons z zs =>
              simp only [sortedDescB, Bool.and_eq_true] at hl
              exact hl.2
        have htail := ih hys
        simp only [insertDescBy, h, if_false]
        apply sortedDescB_cons key y _ htail
        intro w hw
        cases ys with
        | nil =>
            simp [insertDescBy] at hw
            subst hw
            exact le_of_lt (lt_of_not_le h)
        | cons z zs =>
            simp only [sortedDescB, Bool.and_eq_true, decide_eq_true_eq] at hl
            by_cases hz : key z ≤ key r
            · simp [insertDescBy, hz] at hw
              subst hw
              exact le_of_lt (lt_of_not_le h)
            · simp [insertDescBy, hz] at hw
              subst hw
              exact hl.1

theorem sortedDescB_sortDescBy {α : Type} (key : α → ℚ) (l : List α) :
    sortedDescB key (sortDescBy key l) = true := by
  induction l with
  | nil => rfl
  | cons y ys ih => exact sortedDescB_insertDescBy key y _ ih

theorem sortedDescB_take {α : Type} (key : α → ℚ) (l : List α) (n : Nat)
    (hl : sortedDescB key l = true) :
    sortedDescB key (l.take n) = true := by
  induction l generalizing n with
  | nil => cases n <;> exact hl
  | cons y ys ih =>
      cases n with
      | zero => rfl
      | succ m =>
          cases ys with
          | nil => cases m <;> rfl
          | cons z zs =>
              simp only [sortedDescB, Bool.and_eq_true] at hl
              cases m with
              | zero => rfl
              | succ m2 =>
                  simp only [List.take, sortedDescB, Bool.and_eq_true]
                  exact ⟨hl.1, by
                    have := ih (n := m2 + 1) hl.2
                    simpa [List.take] using this⟩

/-! ### `_validate_search_quality` (retrieval_rerank.py:1259-1289) -/

/-- Python `str.strip()`. -/
def pyStrip (s : String) : String :=
  String.mk (((s.data.dropWhile Char.isWhitespace).reverse.dropWhile
    Char.isWhitespace).reverse)

/-- Python `str.lower()` (ASCII case folding; Hangul and digits, the only
characters the keyword regex matches, are unaffected by case folding). -/
def pyLower (s : String) : String := String.mk (s.data.map Char.toLower)

/-- A Hangul syllable, the `[가-힣]` class of the keyword regex. -/
def isHangul (c : Char) : Bool := 0xAC00 ≤ c.toNat && c.toNat ≤ 0xD7A3

/-- The `\d` class of the keyword regex. -/
def isDigitChar (c : Char) : Bool := c.isDigit

/-- Scanner for `re.findall(r'[가-힣]+|\d+', text)` (fuel is always
sufficient: each step consumes at least one character). -/
def keywordTokensAux : Nat → List Char → List String
  | 0, _ => []
  | _, [] => []
  | fuel + 1, c :: rest =>
    if isHangul c then
      String.mk (c :: rest.takeWhile isHangul) ::
        keywordTokensAux fuel (rest.dropWhile isHangul)
    else if isDigitChar c then
      String.mk (c :: rest.takeWhile isDigitChar) ::
        keywordTokensAux fuel (rest.dropWhile isDigitChar)
    else
      keywordTokensAux fuel rest

/-- `re.findall(r'[가-힣]+|\d+', text)`: maximal Hangul runs and maximal
digit runs, in order of appearance. -/
def keywordTokens (cs : List Char) : List String :=
  keywordTokensAux (cs.length + 1) cs

/-- `set(re.findall(r'[가-힣]+|\d+', text.lower()))`, as the list of
distinct keyword tokens in first-appearance order. -/
def extractKeywords (text : String) : List String :=
  (keywordTokens (pyLower text).data).dedup

/-- `relevance_ratio` of one result against the (deduplicated) query
keyword set. -/
def relevanceRatio (queryKeywords : List String) (content : String) : ℚ :=
  let contentKeywords := extractKeywords content
  ((queryKeywords.filter (fun k => k ∈ contentKeywords)).length : ℚ) /
    (queryKeywords.length : ℚ)

/-- `_validate_search_quality`: keyword-overlap score adjustment and
relevance gating; pass-through when the query has no keywords. -/
def validateSearchQuality (query : String) (results : List SearchResult) :
    List SearchResult :=
  let queryKeywords := extractKeywords query
  if queryKeywords.isEmpty then results
  else
    results.filterMap (fun r =>
      let ratio := relevanceRatio queryKeywords r.content
      let adjustedScore := r.score * (7/10 + 3/10 * ratio)
      let newScore := min 1 adjustedScore
      if 1/10 < ratio ∨ 7/10 < newScore then some { r with score := newScore }
      else none)

/-! ### `_dense_search` (retrieval_rerank.py:737-784) -/

/-- Cosine-score normalization `max(0.0, min(1.0, (score + 1.0) / 2.0))`. -/
def normalizeCosine (s : ℚ) : ℚ := max 0 (min 1 ((s + 1) / 2))

/-- The `SearchResult` a raw dense point becomes: normalized score, same
id, content and metadata. -/
def denseResultOf (p : QPoint) (c : String) : SearchResult :=
  { id := p.id, content := c, score := normalizeCosine p.score,
    metadata := p.metadata }

/-- The dedup-and-normalize loop of `_dense_search`.  `seen` holds the
content hashes already emitted (`hash(content.strip())` is modelled as the
stripped content itself); a missing `payload['content']` raises, modelled
as `none`. -/
def denseCollect : List QPoint → List String → Option (List SearchResult)
  | [], _ => some []
  | p :: rest, seen =>
    match p.content with
    | none => none
    | some c =>
      if pyStrip c ∈ seen then denseCollect rest seen
      else
        match denseCollect rest (pyStrip c :: seen) with
        | none => none
        | some acc => some (denseResultOf p c :: acc)

/-- `_dense_search`: the store query (issued with `limit * 3`) either
raises (`.error`) or returns raw points; any exception in the body — store
failure or missing payload key — is caught and yields `[]`. -/
def denseSearch (fetched : Except Unit (List QPoint)) (limit : Nat) :
    List SearchResult :=
  match fetched with
  | .error _ => []
  | .ok pts =>
      match denseCollect pts [] with
      | none => []
      | some uniqueResults =>
          (sortDescBy (fun r => r.score) uniqueResults).take limit

/-! ### `_rrf_fusion` (retrieval_rerank.py:786-847) -/

/-- One `doc_scores` entry: the stored point (first occurrence) and the
accumulated RRF score. -/
structure RRFEntry where
  pid : String
  point : QPoint
  rrfScore : ℚ
deriving DecidableEq

/-- Add one contribution to `doc_scores`, creating the entry (score 0,
keeping the first point seen) when absent, in insertion order. -/
def rrfAdd : List RRFEntry → QPoint → ℚ → List RRFEntry
  | [], p, delta => [{ pid := p.id, point := p, rrfScore := delta }]
  | e :: rest, p, delta =>
      if e.pid = p.id then { e with rrfScore := e.rrfScore + delta } :: rest
      else e :: rrfAdd rest p delta

/-- `for rank, point in enumerate(points)` accumulation with weight `w`
and `k = 60`: each point at 0-indexed `rank` contributes
`(1 / (k + rank + 1)) * w`. -/
def rrfAccum (w : ℚ) : Nat → List QPoint → List RRFEntry → List RRFEntry
  | _, [], acc => acc
  | rank, p :: rest, acc =>
      rrfAccum w (rank + 1) rest (rrfAdd acc p ((1 / (60 + (rank : ℚ) + 1)) * w))

/-- Accumulated RRF score of a document id. -/
def rrfLookup : List RRFEntry → String → Option ℚ
  | [], _ => none
  | e :: rest, pid => if e.pid = pid then some e.rrfScore else rrfLookup rest pid

/-- `SearchResult` built from a stored point (raises — `none` — when
`payload['content']` is missing). -/
def resultOfPoint (p : QPoint) (score : ℚ) : Option SearchResult :=
  match p.content with
  | none => none
  | some c => some { id := p.id, content := c, score := score, metadata := p.metadata }

/-- The `try` body of `_rrf_fusion`: accumulate both lists, sort by RRF
score descending, truncate to `limit`, build results. -/
def rrfTry (densePoints sparsePoints : List QPoint) (limit : Nat) (dw sw : ℚ) :
    Option (List SearchResult) :=
  let acc := rrfAccum sw 0 sparsePoints (rrfAccum dw 0 densePoints [])
  let sortedDocs := sortDescBy (fun e => e.rrfScore) acc
  (sortedDocs.take limit).mapM (fun e => resultOfPoint e.point e.rrfScore)

/-- `_rrf_fusion` with its `except` fallback: on internal failure return
the dense list truncated to `limit` with its original scores (that build
re-raises — stays `none` — if a dense payload is itself malformed). -/
def rrfFusion (densePoints sparsePoints : List QPoint) (limit : Nat) (dw sw : ℚ) :
    Option (List SearchResult) :=
  match rrfTry densePoints sparsePoints limit dw sw with
  | some res => some res
  | none => (densePoints.take limit).mapM (fun p => resultOfPoint p p.score)

/-! ### `_fuse_multi_query_results` (retrieval_rerank.py:1560-1607) -/

/-- One `result_groups` entry: first-seen result, scores and
`metadata.get('query', '')` values in arrival order. -/
structure FusionGroup where
  firstResult : SearchResult
  scores : List ℚ
  queries : List PyVal
deriving DecidableEq

/-- `result.metadata.get('query', '')` — the source-query tag carried by
a fused result's metadata. -/
def sourceQueryOf (r : SearchResult) : PyVal :=
  (dictGet r.metadata "query").getD (PyVal.str "")

/-- Fold one result into `result_groups` (keyed by document id, insertion
order preserved; keys stay unique by construction). -/
def fusionAdd : List (String × FusionGroup) → SearchResult →
    List (String × FusionGroup)
  | [], r =>
      [(r.id, { firstResult := r, scores := [r.score],
                queries := [sourceQueryOf r] })]
  | g :: rest, r =>
      if g.1 = r.id then
        (g.1, { g.2 with scores := g.2.scores ++ [r.score],
                         queries := g.2.queries ++ [sourceQueryOf r] }) :: rest
      else g :: fusionAdd rest r

def groupsOf (allResults : List SearchResult) : List (String × FusionGroup) :=
  allResults.foldl fusionAdd []

/-- `max(group['scores'])` (groups are nonempty by construction). -/
def maxOfScores : List ℚ → ℚ
  | [] => 0
  | s :: rest => rest.foldl max s

/-- Finalize one group: `final_score = max_score + diversity_bonus`, with
`multi_query_count` and the score breakdown attached to metadata. -/
def fuseGroup (g : FusionGroup) : SearchResult :=
  let avgScore := g.scores.sum / (g.scores.length : ℚ)
  let maxScore := maxOfScores g.scores
  let diversityBonus := ((g.queries.dedup.length : ℚ)) * (5/100)
  let finalScore := maxScore + diversityBonus
  { g.firstResult with
      score := finalScore,
      metadata :=
        dictSet
          (dictSet g.firstResult.metadata "multi_query_count"
            (PyVal.int g.scores.length))
          "score_details" (PyVal.scoreDetails avgScore maxScore diversityBonus) }

/-- `_fuse_multi_query_results` (its `except` branch is unreachable: the
body is total). -/
def fuseMultiQueryResults (allResults : List SearchResult) : List SearchResult :=
  sortDescBy (fun r => r.score) ((groupsOf allResults).map (fun g => fuseGroup g.2))

/-! ### `search` (retrieval_rerank.py:524-595) -/

/-- The deterministic tail of `search`: the per-(sub)query store responses
come in, are concatenated, fused when query expansion yielded more than
one query (`multiQuery`), quality-validated against the original query and
truncated to `limit`. -/
def searchPipeline (query : String) (limit : Nat) (multiQuery : Bool)
    (perQueryResults : List (List SearchResult)) : List SearchResult :=
  let allResults := perQueryResults.flatten
  let finalResults :=
    if multiQuery then fuseMultiQueryResults allResults else allResults
  (validateSearchQuality query finalResults).take limit

/-! ### `_ensure_hybrid_collection_compatibility` (retrieval_rerank.py:301-363) -/

structure HybridState where
  hybridCompatibilityChecked : Bool
  hybridEnabled : Bool
deriving DecidableEq

inductive CheckOutcome where
  /-- the compatibility check (and migration, when needed) completed -/
  | ok
  /-- the compatibility check or the migration raised -/
  | raises
deriving DecidableEq

/-- One completed call to `_ensure_hybrid_collection_compatibility`; the
second component records whether the call performed the check (entered the
locked critical section and did work). -/
def ensureHybridCompatible (s : HybridState) (outcome : CheckOutcome) :
    HybridState × Bool :=
  if s.hybridCompatibilityChecked || !s.hybridEnabled then (s, false)
  else
    match outcome with
    | .ok => ({ s with hybridCompatibilityChecked := true }, true)
    | .raises => ({ hybridCompatibilityChecked := true, hybridEnabled := false }, true)

/-! ### `SearchResult.__post_init__` (retrieval_rerank.py:32-43) -/

/-- A Python attribute value of the constructed object: a metadata value
or the metadata dict itself. -/
inductive AttrVal where
  | val : PyVal → AttrVal
  | mdict : PyDict → AttrVal
deriving DecidableEq

abbrev AttrMap := List (String × AttrVal)

def attrGet : AttrMap → String → Option AttrVal
  | [], _ => none
  | e :: rest, k => if e.1 = k then some e.2 else attrGet rest k

/-- `setattr(self, key, value)`: overwrite an existing attribute in place,
append a new one. -/
def setAttr : AttrMap → String → AttrVal → AttrMap
  | [], k, v => [(k, v)]
  | e :: rest, k, v =>
      if e.1 = k then (k, v) :: rest else e :: setAttr rest k v

/-- Constructing a `SearchResult`: the dataclass fields become attributes,
then `__post_init__` runs `setattr(self, key, value)` for every metadata
item in insertion order. -/
def mkSearchResultObject (idArg contentArg : String) (scoreArg : ℚ)
    (metadataArg : PyDict) : AttrMap :=
  metadataArg.foldl (fun attrs kv => setAttr attrs kv.1 (AttrVal.val kv.2))
    [("id", AttrVal.val (PyVal.str idArg)),
     ("content", AttrVal.val (PyVal.str contentArg)),
     ("score", AttrVal.val (PyVal.rat scoreArg)),
     ("metadata", AttrVal.mdict metadataArg)]

/-! ### `rerank` and `_rerank_jina` (retrieval_rerank.py:850-890, 1046-1090) -/

/-- The result-rebuild loop shared by the Cohere and Jina helpers: each
provider entry `(index, relevance_score)` sets `results[index].score` on
the original object and appends that same object; an out-of-range index
raises mid-loop.  Returns the (possibly partially mutated) backing list,
the rebuilt list, and whether the loop raised.  (Object aliasing between
the two lists is exact for distinct provider indices.) -/
def applyProviderEntries :
    List SearchResult → List (Nat × ℚ) → List SearchResult →
    (List SearchResult × List SearchResult × Bool)
  | results, [], acc => (results, acc.reverse, false)
  | results, (idx, sc) :: rest, acc =>
      match results[idx]? with
      | none => (results, acc.reverse, true)
      | some orig =>
          let updated := { orig with score := sc }
          applyProviderEntries (results.set idx updated) rest (updated :: acc)

/-- `_rerank_jina` (and structurally `_rerank_cohere`): a transport or
HTTP-status error (`.error`) and a mid-loop raise are both caught by the
helper's own `except`, which returns the backing `results` list — with any
score mutations already made; on success the rebuilt list is returned. -/
def rerankJina (results : List SearchResult)
    (response : Except Unit (List (Nat × ℚ))) : List SearchResult :=
  match response with
  | .error _ => results
  | .ok entries =>
      let out := applyProviderEntries results entries []
      if out.2.2 then out.1 else out.2.1

/-- `rerank`: no-op when reranking is disabled or results are empty;
`providerOutput = none` is the `reranker not available` branch; otherwise
the provider helper's return value is filtered by `min_score` when
nonempty.  The provider helpers catch all their exceptions, so `rerank`'s
own `except` branch is unreachable through them. -/
def rerankPipeline (rerankingEnabled : Bool) (searchResults : List SearchResult)
    (minScore : ℚ) (providerOutput : Option (List SearchResult)) : List SearchResult :=
  if !rerankingEnabled || searchResults.isEmpty then searchResults
  else
    match providerOutput with
    | none => searchResults
    | some rerankedResults =>
        if rerankedResults.isEmpty then searchResults
        else rerankedResults.filter (fun r => minScore ≤ r.score)

/-! ### JSON parsing for the LLM reranker (`json.loads` on the shapes the
reranker handles; exponents and unicode escapes are not needed by it) -/

def braceOpen : Char := Char.ofNat 123

def braceClose : Char := Char.ofNat 125

inductive JsonVal where
  | null : JsonVal
  | bool : Bool → JsonVal
  | num : ℚ → JsonVal
  | str : String → JsonVal
  | arr : List JsonVal → JsonVal
  | obj : List (String × JsonVal) → JsonVal

def jsonSkipWs (cs : List Char) : List Char :=
  cs.dropWhile (fun c => c == ' ' || c == '\n' || c == '\t' || c == '\r')

def jsonEscapeChar (c : Char) : Char :=
  if c = 'n' then '\n'
  else if c = 't' then '\t'
  else if c = 'r' then '\r'
  else if c = 'b' then Char.ofNat 8
  else if c = 'f' then Char.ofNat 12
  else c

/-- Body of a JSON string after the opening quote: returns the decoded
characters and the input after the closing quote. -/
def jsonStringBody : List Char → Option (List Char × List Char)
  | [] => none
  | c :: rest =>
    if c = '"' then some ([], rest)
    else if c = '\\' then
      match rest with
      | [] => none
      | e :: rest2 =>
          match jsonStringBody rest2 with
          | none => none
          | some (acc, rem) => some (jsonEscapeChar e :: acc, rem)
    else
      match jsonStringBody rest with
      | none => none
      | some (acc, rem) => some (c :: acc, rem)

def digitVal (c : Char) : Nat := c.toNat - 48

/-- A nonempty digit run: value, digit count, rest. -/
def jsonDigits (cs : List Char) : Option (Nat × Nat × List Char) :=
  let digits := cs.takeWhile Char.isDigit
  if digits.isEmpty then none
  else some (digits.foldl (fun acc c => acc * 10 + digitVal c) 0, digits.length,
             cs.dropWhile Char.isDigit)

def jsonNumber (cs : List Char) : Option (ℚ × List Char) :=
  let signed := match cs with
    | '-' :: rest => (true, rest)
    | _ => (false, cs)
  match jsonDigits signed.2 with
  | none => none
  | some (intPart, _, cs2) =>
      match cs2 with
      | '.' :: cs3 =>
          (match jsonDigits cs3 with
           | none => none
           | some (fracPart, fracLen, cs4) =>
               let q : ℚ := (intPart : ℚ) + (fracPart : ℚ) / ((10 : ℚ) ^ fracLen)
               some (if signed.1 then -q else q, cs4))
      | _ => some (if signed.1 then -(intPart : ℚ) else (intPart : ℚ), cs2)

mutual

def jsonParseVal : Nat → List Char → Option (JsonVal × List Char)
  | 0, _ => none
  | fuel + 1, cs =>
    match jsonSkipWs cs with
    | [] => none
    | c :: rest =>
      if c = braceOpen then
        match jsonSkipWs rest with
        | d :: cs2 =>
            if d = braceClose then some (JsonVal.obj [], cs2)
            else
              match jsonFields fuel rest with
              | none => none
              | some (fields, cs3) => some (JsonVal.obj fields, cs3)
        | [] => none
      else if c = '[' then
        match jsonSkipWs rest with
        | ']' :: cs2 => some (JsonVal.arr [], cs2)
        | _ =>
            match jsonElems fuel rest with
            | none => none
            | some (elems, cs3) => some (JsonVal.arr elems, cs3)
      else if c = '"' then
        match jsonStringBody rest with
        | none => none
        | some (strChars, cs2) => some (JsonVal.str (String.mk strChars), cs2)
      else if c = 't' then
        match rest with
        | 'r' :: 'u' :: 'e' :: cs2 => some (JsonVal.bool true, cs2)
        | _ => none
      else if c = 'f' then
        match rest with
        | 'a' :: 'l' :: 's' :: 'e' :: cs2 => some (JsonVal.bool false, cs2)
        | _ => none
      else if c = 'n' then
        match rest with
        | 'u' :: 'l' :: 'l' :: cs2 => some (JsonVal.null, cs2)
        | _ => none
      else if c = '-' || c.isDigit then
        match jsonNumber (c :: rest) with
        | none => none
        | some (q, cs2) => some (JsonVal.num q, cs2)
      else none

/-- `"key": value` fields, separated by `,`, terminated by the closing
brace. -/
def jsonFields : Nat → List Char → Option (List (String × JsonVal) × List Char)
  | 0, _ => none
  | fuel + 1, cs =>
    match jsonSkipWs cs with
    | '"' :: rest =>
        (match jsonStringBody rest with
         | none => none
         | some (keyChars, cs2) =>
             match jsonSkipWs cs2 with
             | ':' :: cs3 =>
                 (match jsonParseVal fuel cs3 with
                  | none => none
                  | some (v, cs4) =>
                      match jsonSkipWs cs4 with
                      | ',' :: cs5 =>
                          (match jsonFields fuel cs5 with
                           | none => none
                           | some (fields, cs6) =>
                               some ((String.mk keyChars, v) :: fields, cs6))
                      | d :: cs5 =>
                          if d = braceClose then
                            some ([(String.mk keyChars, v)], cs5)
                          else none
                      | [] => none)
             | _ => none)
    | _ => none

/-- Array elements separated by `,`, terminated by `]`. -/
def jsonElems : Nat → List Char → Option (List JsonVal × List Char)
  | 0, _ => none
  | fuel + 1, cs =>
    match jsonParseVal fuel cs with
    | none => none
    | some (v, cs2) =>
        match jsonSkipWs cs2 with
        | ',' :: cs3 =>
            (match jsonElems fuel cs3 with
             | none => none
             | some (elems, cs4) => some (v :: elems, cs4))
        | ']' :: cs3 => some ([v], cs3)
        | _ => none

end

/-- `json.loads`: parse one JSON value and require only whitespace after. -/
def jsonLoads (s : String) : Option JsonVal :=
  match jsonParseVal (2 * s.data.length + 2) s.data with
  | none => none
  | some (v, rest) => if (jsonSkipWs rest).isEmpty then some v else none

/-- `re.search(r'\{.*\}', s, re.DOTALL).group()`: the greedy match runs
from the first open brace through the last close brace of the whole
string (`none` when no close brace follows the first open brace). -/
def greedyBraceSpan (s : String) : Option String :=
  let fromBrace := s.data.dropWhile (fun c => !(c == braceOpen))
  let span := (fromBrace.reverse.dropWhile (fun c => !(c == braceClose))).reverse
  if 2 ≤ span.length then some (String.mk span) else none

/-- Modelled from the spec's words (for comparison with the source's
greedy extraction): the *first top-level* brace span — from the first open
brace to its matching close brace at depth 0. -/
def braceScan : List Char → Nat → List Char → Option (List Char)
  | [], _, _ => none
  | c :: rest, depth, acc =>
    if c = braceOpen then braceScan rest (depth + 1) (c :: acc)
    else if c = braceClose then
      if depth = 1 then some ((c :: acc).reverse)
      else braceScan rest (depth - 1) (c :: acc)
    else braceScan rest depth (c :: acc)

/-- Modelled from the spec's words: extract the first top-level
`\x7b...\x7d` span of the response. -/
def firstTopLevelBraceSpan (s : String) : Option String :=
  match s.data.dropWhile (fun c => !(c == braceOpen)) with
  | [] => none
  | c :: rest => (braceScan (c :: rest) 0 []).map String.mk

/-! ### `_rerank_gpt5_nano` (retrieval_rerank.py:923-1044) -/

def jsonObjGet : List (String × JsonVal) → String → Option JsonVal
  | [], _ => none
  | e :: rest, k => if e.1 = k then some e.2 else jsonObjGet rest k

/-- `rerank_data.get('results', [])`: an object without the key gives
`[]`; a non-object or a non-array value raises (`none`), caught by the
outer `except`. -/
def getResultsList : JsonVal → Option (List JsonVal)
  | JsonVal.obj fields =>
      match jsonObjGet fields "results" with
      | none => some []
      | some (JsonVal.arr elems) => some elems
      | some _ => none
  | _ => none

/-- One entry: `item.get('index', 0)` and
`max(0.0, min(1.0, float(item.get('score', 0.5))))`.  A non-dict item or a
non-numeric field raises (`none`). -/
def parseEntry : JsonVal → Option (ℚ × ℚ)
  | JsonVal.obj fields =>
      let idxv := (jsonObjGet fields "index").getD (JsonVal.num 0)
      let scorev := (jsonObjGet fields "score").getD (JsonVal.num (1/2))
      match idxv, scorev with
      | JsonVal.num qi, JsonVal.num qs => some (qi, max 0 (min 1 qs))
      | _, _ => none
  | _ => none

/-- The entry loop: `if 0 <= idx < len(results)` skips out-of-range
indices silently; an in-range fractional index raises on list indexing
(`none`); otherwise a fresh `SearchResult` carries the clamped score. -/
def buildReranked (results : List SearchResult) :
    List (ℚ × ℚ) → Option (List SearchResult)
  | [] => some []
  | (qi, qs) :: rest =>
      if 0 ≤ qi ∧ qi < (results.length : ℚ) then
        if qi.den = 1 then
          match results[qi.num.toNat]? with
          | none => none
          | some orig =>
              match buildReranked results rest with
              | none => none
              | some acc => some ({ orig with score := qs } :: acc)
        else none
      else buildReranked results rest

/-- Processing of the parsed JSON: take the first `top_k` entries, build
the reranked list, sort it descending; an empty outcome falls back to
`results[:top_k]`; any raise is caught by the outer `except`, which
returns `results` untouched. -/
def processRerankData (results : List SearchResult) (topK : Nat) (d : JsonVal) :
    List SearchResult :=
  match getResultsList d with
  | none => results
  | some items =>
      match (items.take topK).mapM parseEntry with
      | none => results
      | some entries =>
          match buildReranked results entries with
          | none => results
          | some reranked =>
              let rerankedSorted := sortDescBy (fun r => r.score) reranked
              if rerankedSorted.isEmpty then results.take topK else rerankedSorted

/-- `_rerank_gpt5_nano` from the LLM response body on
(`none` = the API returned a `None` content): empty or unparseable
responses fall back to the original results sorted by their pre-rerank
score, truncated to `top_k`; parsing tries the whole (stripped) body
first, then the greedy first-open-brace-to-last-close-brace span. -/
def rerankGpt5Nano (results : List SearchResult) (topK : Nat)
    (responseContent : Option String) : List SearchResult :=
  match responseContent with
  | none => (sortDescBy (fun r => r.score) results).take topK
  | some raw =>
    if raw = "" then (sortDescBy (fun r => r.score) results).take topK
    else
      let stripped := pyStrip raw
      let parsed :=
        match jsonLoads stripped with
        | some d => some d
        | none =>
            match greedyBraceSpan stripped with
            | some span => jsonLoads span
            | none => none
      match parsed with
      | none => (sortDescBy (fun r => r.score) results).take topK
      | some d => processRerankData results topK d

/-! ### Association-list lemmas -/

theorem dictGet_dictSet_same (d : PyDict) (k : String) (v : PyVal) :
    dictGet (dictSet d k v) k = some v := by
  induction d with
  | nil => simp [dictSet, dictGet]
  | cons e rest ih =>
      by_cases h : e.1 = k
      · simp [dictSet, h, dictGet]
      · simp [dictSet, h, dictGet, ih]

theorem dictGet_dictSet_other (d : PyDict) (k k2 : String) (v : PyVal)
    (h : k2 ≠ k) : dictGet (dictSet d k v) k2 = dictGet d k2 := by
  induction d with
  | nil => simp [dictSet, dictGet, Ne.symm h]
  | cons e rest ih =>
      by_cases he : e.1 = k
      · subst he
        simp [dictSet, dictGet, Ne.symm h]
      · simp only [dictSet, he, if_false, dictGet]
        by_cases he2 : e.1 = k2
        · simp [he2]
        · simp [he2, ih]

theorem attrGet_setAttr_same (a : AttrMap) (k : String) (v : AttrVal) :
    attrGet (setAttr a k v) k = some v := by
  induction a with
  | nil => simp [setAttr, attrGet]
  | cons e rest ih =>
      by_cases h : e.1 = k
      · simp [setAttr, h, attrGet]
      · simp [setAttr, h, attrGet, ih]

theorem attrGet_setAttr_other (a : AttrMap) (k k2 : String) (v : AttrVal)
    (h : k2 ≠ k) : attrGet (setAttr a k v) k2 = attrGet a k2 := by
  induction a with
  | nil => simp [setAttr, attrGet, Ne.symm h]
  | cons e rest ih =>
      by_cases he : e.1 = k
      · subst he
        simp [setAttr, attrGet, Ne.symm h]
      · simp only [setAttr, he, if_false, attrGet]
        by_cases he2 : e.1 = k2
        · simp [he2]
        · simp [he2, ih]

theorem attrGet_post_init_fold_not_mem (md : PyDict) (a : AttrMap) (k : String)
    (hk : ∀ kv ∈ md, kv.1 ≠ k) :
    attrGet (md.foldl (fun attrs kv => setAttr attrs kv.1 (AttrVal.val kv.2)) a) k =
      attrGet a k := by
  induction md generalizing a with
  | nil => rfl
  | cons x rest ih =>
      rw [List.foldl_cons]
      rw [ih _ (fun kv hkv => hk kv (List.mem_cons_of_mem x hkv))]
      exact attrGet_setAttr_other a x.1 k (AttrVal.val x.2)
        (fun he => hk x (List.mem_cons_self x rest) he.symm)

theorem attrGet_post_init_fold_mem (md : PyDict) (a : AttrMap)
    (kv : String × PyVal) (hkv : kv ∈ md) (hnd : (md.map Prod.fst).Nodup) :
    attrGet (md.foldl (fun attrs kv2 => setAttr attrs kv2.1 (AttrVal.val kv2.2)) a)
      kv.1 = some (AttrVal.val kv.2) := by
  induction md generalizing a with
  | nil => cases hkv
  | cons x rest ih =>
      rw [List.map_cons, List.nodup_cons] at hnd
      rcases List.mem_cons.1 hkv with heq | hmem
      · subst heq
        rw [List.foldl_cons]
        rw [attrGet_post_init_fold_not_mem rest _ kv.1
          (fun kv2 hkv2 he => hnd.1 (he ▸ List.mem_map_of_mem Prod.fst hkv2))]
        exact attrGet_setAttr_same a kv.1 (AttrVal.val kv.2)
      · rw [List.foldl_cons]
        exact ih _ hmem hnd.2

/-! ### Claim theorems: C9, C8, C10, C5 -/

/-- Claim C9: the terminal dense-only tier never raises: when the
underlying dense vector search itself fails, `_dense_search` catches the
exception and returns an empty result list instead of propagating it. -/
theorem dense_search_error_c9 (e : Unit) (limit : Nat) :
    denseSearch (Except.error e) limit = [] := rfl

/-- Claim C8: `_ensure_hybrid_collection_compatibility` is idempotent:
after any completed call that entered the check (hybrid enabled), the
verified flag is set — also when the check or migration raised; every
subsequent call returns immediately without doing any work and leaves the
state unchanged; and on failure hybrid mode is disabled for the remainder
of the process, so search falls back to dense-only instead of retrying. -/
theorem ensure_hybrid_c8 (s : HybridState) (o o2 : CheckOutcome) :
    (s.hybridEnabled = true →
      ((ensureHybridCompatible s o).1).hybridCompatibilityChecked = true) ∧
    (ensureHybridCompatible (ensureHybridCompatible s o).1 o2 =
      ((ensureHybridCompatible s o).1, false)) ∧
    (s.hybridEnabled = true → s.hybridCompatibilityChecked = false →
      o = CheckOutcome.raises →
      ((ensureHybridCompatible s o).1).hybridEnabled = false) := by
  rcases s with ⟨c, h⟩
  cases c <;> cases h <;> cases o <;> cases o2 <;> decide

/-- Witness for C8 at a concrete state: a first call with hybrid enabled
that raises sets the verified flag and disables hybrid mode. -/
theorem ensure_hybrid_c8_witness :
    ((ensureHybridCompatible ⟨false, true⟩ CheckOutcome.raises).1).hybridCompatibilityChecked
        = true ∧
    ((ensureHybridCompatible ⟨false, true⟩ CheckOutcome.raises).1).hybridEnabled = false :=
  ⟨(ensure_hybrid_c8 ⟨false, true⟩ CheckOutcome.raises CheckOutcome.ok).1 rfl,
   (ensure_hybrid_c8 ⟨false, true⟩ CheckOutcome.raises CheckOutcome.ok).2.2 rfl rfl rfl⟩

/-- Claim C10: constructing a `SearchResult` sets an attribute on the
object for every metadata key (`__post_init__` runs `setattr` per item),
so if metadata contains a key named `id`, `content` or `score`, that
attribute holds the metadata value rather than the constructor argument of
the same name. -/
theorem post_init_attrs_c10 (idArg contentArg : String) (scoreArg : ℚ)
    (md : PyDict) (hnd : (md.map Prod.fst).Nodup) :
    (∀ kv ∈ md,
      attrGet (mkSearchResultObject idArg contentArg scoreArg md) kv.1 =
        some (AttrVal.val kv.2)) ∧
    (∀ v, ("id", v) ∈ md →
      attrGet (mkSearchResultObject idArg contentArg scoreArg md) "id" =
        some (AttrVal.val v)) ∧
    (∀ v, ("content", v) ∈ md →
      attrGet (mkSearchResultObject idArg contentArg scoreArg md) "content" =
        some (AttrVal.val v)) ∧
    (∀ v, ("score", v) ∈ md →
      attrGet (mkSearchResultObject idArg contentArg scoreArg md) "score" =
        some (AttrVal.val v)) := by
  have hbase : ∀ kv ∈ md,
      attrGet (mkSearchResultObject idArg contentArg scoreArg md) kv.1 =
        some (AttrVal.val kv.2) := by
    intro kv hkv
    exact attrGet_post_init_fold_mem md _ kv hkv hnd
  exact ⟨hbase,
    fun v hv => hbase ("id", v) hv,
    fun v hv => hbase ("content", v) hv,
    fun v hv => hbase ("score", v) hv⟩

/-- Witness for C10: a metadata key `score` shadows the dataclass field:
the attribute holds `0.9` although the constructor was passed `0.5`. -/
theorem post_init_attrs_c10_witness :
    attrGet (mkSearchResultObject "p1" "text" (1/2)
        [("score", PyVal.rat (9/10)), ("source", PyVal.str "f.pdf")]) "score" =
      some (AttrVal.val (PyVal.rat (9/10))) :=
  (post_init_attrs_c10 "p1" "text" (1/2)
      [("score", PyVal.rat (9/10)), ("source", PyVal.str "f.pdf")]
      (by simp)).2.2.2 (PyVal.rat (9/10)) (by simp)

/-- Claim C5: the quality validator passes everything through when the
query has no extractable keywords; otherwise it rewrites each kept score
to `min 1 (score * (0.7 + 0.3 * relevance_ratio))` and keeps a result
exactly when `relevance_ratio > 0.1` or the adjusted score `> 0.7`; with
keyword ratio `1/2` the adjustment factor is `0.85` and the result is
kept. -/
theorem validate_quality_c5 (query : String) (results : List SearchResult) :
    (extractKeywords query = [] → validateSearchQuality query results = results) ∧
    (extractKeywords query ≠ [] →
      ∀ r2 ∈ validateSearchQuality query results, ∃ r ∈ results,
        r2 = { r with score := min 1 (r.score * (7/10 + 3/10 *
                relevanceRatio (extractKeywords query) r.content)) } ∧
        (1/10 < relevanceRatio (extractKeywords query) r.content ∨
          7/10 < min 1 (r.score * (7/10 + 3/10 *
            relevanceRatio (extractKeywords query) r.content)))) ∧
    (extractKeywords query ≠ [] →
      ∀ r ∈ results,
        (1/10 < relevanceRatio (extractKeywords query) r.content ∨
          7/10 < min 1 (r.score * (7/10 + 3/10 *
            relevanceRatio (extractKeywords query) r.content))) →
        { r with score := min 1 (r.score * (7/10 + 3/10 *
            relevanceRatio (extractKeywords query) r.content)) } ∈
          validateSearchQuality query results) ∧
    (relevanceRatio (extractKeywords "가 나") "가" = 1/2 ∧
      ((7:ℚ)/10 + 3/10 * (1/2)) = 85/100 ∧
      (validateSearchQuality "가 나"
          [{ id := "x", content := "가", score := 3/5, metadata := [] }]).map
            (fun r => (r.id, r.score)) = [("x", 51/100)]) := by
  refine ⟨?_, ?_, ?_, ?_, ?_, ?_⟩
  · intro hempty
    simp [validateSearchQuality, hempty]
  · intro hne r2 hr2
    rw [validateSearchQuality] at hr2
    rw [if_neg (by simpa [List.isEmpty_iff] using hne)] at hr2
    rcases List.mem_filterMap.1 hr2 with ⟨r, hr, hfr⟩
    by_cases hcond : 1/10 < relevanceRatio (extractKeywords query) r.content ∨
        7/10 < min 1 (r.score * (7/10 + 3/10 *
          relevanceRatio (extractKeywords query) r.content))
    · refine ⟨r, hr, ?_, hcond⟩
      simp only [if_pos hcond] at hfr
      exact (Option.some.injEq _ _ ▸ hfr).symm
    · simp only [if_neg hcond] at hfr
      cases hfr
  · intro hne r hr hcond
    rw [validateSearchQuality]
    rw [if_neg (by simpa [List.isEmpty_iff] using hne)]
    exact List.mem_filterMap.2 ⟨r, hr, by simp only [if_pos hcond]⟩
  · with_unfolding_all decide
  · with_unfolding_all decide
  · with_unfolding_all decide

/-- Witness for C5 at concrete inputs: query keywords `{가, 나}` and a
content containing only `가` give ratio `1/2`, and the adjusted result is
kept by the validator. -/
theorem validate_quality_c5_witness :
    ({ id := "x", content := "가", score := min 1 ((3:ℚ)/5 * (7/10 + 3/10 *
        relevanceRatio (extractKeywords "가 나") "가")), metadata := [] } : SearchResult) ∈
      validateSearchQuality "가 나"
        [{ id := "x", content := "가", score := 3/5, metadata := [] }] :=
  (validate_quality_c5 "가 나"
      [{ id := "x", content := "가", score := 3/5, metadata := [] }]).2.2.1
    (by with_unfolding_all decide)
    { id := "x", content := "가", score := 3/5, metadata := [] }
    (by simp)
    (by with_unfolding_all decide)

/-! ### `denseCollect` lemmas (for C4) -/

theorem denseCollect_sources (pts : List QPoint) (seen : List String)
    (u : List SearchResult) (h : denseCollect pts seen = some u) :
    ∀ r ∈ u, ∃ p ∈ pts, ∃ c, p.content = some c ∧ r = denseResultOf p c := by
  induction pts generalizing seen u with
  | nil =>
      simp only [denseCollect, Option.some.injEq] at h
      subst h
      intro r hr
      cases hr
  | cons p rest ih =>
      intro r hr
      rw [denseCollect] at h
      cases hc : p.content with
      | none => rw [hc] at h; cases h
      | some c =>
          rw [hc] at h
          simp only at h
          by_cases hseen : pyStrip c ∈ seen
          · rw [if_pos hseen] at h
            rcases ih seen u h r hr with ⟨q, hq, cq, hcq, hrq⟩
            exact ⟨q, List.mem_cons_of_mem p hq, cq, hcq, hrq⟩
          · rw [if_neg hseen] at h
            cases hrec : denseCollect rest (pyStrip c :: seen) with
            | none => rw [hrec] at h; cases h
            | some acc =>
                rw [hrec] at h
                simp only [Option.some.injEq] at h
                subst h
                rcases List.mem_cons.1 hr with heq | hmem
                · exact ⟨p, List.mem_cons_self p rest, c, hc, heq⟩
                · rcases ih _ acc hrec r hmem with ⟨q, hq, cq, hcq, hrq⟩
                  exact ⟨q, List.mem_cons_of_mem p hq, cq, hcq, hrq⟩

theorem denseCollect_hashes (pts : List QPoint) (seen : List String)
    (u : List SearchResult) (h : denseCollect pts seen = some u) :
    (u.map (fun r => pyStrip r.content)).Nodup ∧
    ∀ r ∈ u, pyStrip r.content ∉ seen := by
  induction pts generalizing seen u with
  | nil =>
      simp only [denseCollect, Option.some.injEq] at h
      subst h
      exact ⟨List.nodup_nil, by intro r hr; cases hr⟩
  | cons p rest ih =>
      rw [denseCollect] at h
      cases hc : p.content with
      | none => rw [hc] at h; cases h
      | some c =>
          rw [hc] at h
          simp only at h
          by_cases hseen : pyStrip c ∈ seen
          · rw [if_pos hseen] at h
            exact ih seen u h
          · rw [if_neg hseen] at h
            cases hrec : denseCollect rest (pyStrip c :: seen) with
            | none => rw [hrec] at h; cases h
            | some acc =>
                rw [hrec] at h
                simp only [Option.some.injEq] at h
                subst h
                rcases ih _ acc hrec with ⟨hnd, hnotin⟩
                constructor
                · rw [List.map_cons, List.nodup_cons]
                  refine ⟨?_, hnd⟩
                  intro hmem
                  rcases List.mem_map.1 hmem with ⟨r, hr, hre⟩
                  exact hnotin r hr (hre ▸ List.mem_cons_self _ _)
                · intro r hr
                  rcases List.mem_cons.1 hr with heq | hmem
                  · subst heq
                    exact hseen
                  · intro hmem2
                    exact hnotin r hmem (List.mem_cons_of_mem _ hmem2)

theorem denseCollect_first_occurrence (pts1 : List QPoint) (p : QPoint)
    (pts2 : List QPoint) (seen : List String) (u : List SearchResult)
    (c : String) (h : denseCollect (pts1 ++ p :: pts2) seen = some u)
    (hc : p.content = some c) (hs : pyStrip c ∉ seen)
    (hfirst : ∀ q ∈ pts1, ∀ cq, q.content = some cq →
      pyStrip cq ≠ pyStrip c) :
    denseResultOf p c ∈ u := by
  induction pts1 generalizing seen u with
  | nil =>
      rw [List.nil_append, denseCollect, hc] at h
      simp only at h
      rw [if_neg hs] at h
      cases hrec : denseCollect pts2 (pyStrip c :: seen) with
      | none => rw [hrec] at h; cases h
      | some acc =>
          rw [hrec] at h
          simp only [Option.some.injEq] at h
          subst h
          exact List.mem_cons_self _ _
  | cons q rest ih =>
      rw [List.cons_append, denseCollect] at h
      cases hcq : q.content with
      | none => rw [hcq] at h; cases h
      | some cq =>
          rw [hcq] at h
          simp only at h
          have hne : pyStrip cq ≠ pyStrip c :=
            hfirst q (List.mem_cons_self q rest) cq hcq
          by_cases hseen : pyStrip cq ∈ seen
          · rw [if_pos hseen] at h
            exact ih seen u h hs
              (fun q2 hq2 cq2 hcq2 => hfirst q2 (List.mem_cons_of_mem q hq2) cq2 hcq2)
          · rw [if_neg hseen] at h
            cases hrec : denseCollect (rest ++ p :: pts2) (pyStrip cq :: seen) with
            | none => rw [hrec] at h; cases h
            | some acc =>
                rw [hrec] at h
                simp only [Option.some.injEq] at h
                subst h
                have hs2 : pyStrip c ∉ pyStrip cq :: seen := by
                  intro hmem
                  rcases List.mem_cons.1 hmem with heq | hmem2
                  · exact hne heq.symm
                  · exact hs hmem2
                exact List.mem_cons_of_mem _
                  (ih _ acc hrec hs2
                    (fun q2 hq2 cq2 hcq2 => hfirst q2 (List.mem_cons_of_mem q hq2) cq2 hcq2))

/-- Claim C4: in the dense-only tier every raw cosine score `s` is
normalized to `(s+1)/2` clamped into `[0,1]` (so `1 ↦ 1`, `-1 ↦ 0`,
`0 ↦ 1/2`), duplicate fragments — equal stripped-content hash — are
collapsed keeping the first occurrence, and the output is sorted
descending by normalized score and truncated to `limit`. -/
theorem dense_search_c4 (pts : List QPoint) (limit : Nat)
    (u : List SearchResult) (hu : denseCollect pts [] = some u) :
    (normalizeCosine 1 = 1 ∧ normalizeCosine (-1) = 0 ∧
      normalizeCosine 0 = 1/2) ∧
    denseSearch (Except.ok pts) limit =
      (sortDescBy (fun r => r.score) u).take limit ∧
    sortedDescB (fun r => r.score) (denseSearch (Except.ok pts) limit) = true ∧
    (denseSearch (Except.ok pts) limit).length ≤ limit ∧
    (u.map (fun r => pyStrip r.content)).Nodup ∧
    (∀ r ∈ denseSearch (Except.ok pts) limit, ∃ p ∈ pts, ∃ c,
      p.content = some c ∧ r = denseResultOf p c) ∧
    (∀ pts1 q pts2 c, pts = pts1 ++ q :: pts2 → q.content = some c →
      (∀ q2 ∈ pts1, ∀ c2, q2.content = some c2 → pyStrip c2 ≠ pyStrip c) →
      denseResultOf q c ∈ u) := by
  have heq : denseSearch (Except.ok pts) limit =
      (sortDescBy (fun r => r.score) u).take limit := by
    simp [denseSearch, hu]
  refine ⟨by refine ⟨?_, ?_, ?_⟩ <;> with_unfolding_all decide, heq, ?_, ?_, ?_, ?_, ?_⟩
  · rw [heq]
    exact sortedDescB_take _ _ _ (sortedDescB_sortDescBy _ _)
  · rw [heq, List.length_take]
    exact min_le_left _ _
  · exact (denseCollect_hashes pts [] u hu).1
  · intro r hr
    rw [heq] at hr
    exact denseCollect_sources pts [] u hu r
      ((mem_sortDescBy _ r u).1 (List.mem_of_mem_take hr))
  · intro pts1 q pts2 c hpts hqc hfirst
    subst hpts
    exact denseCollect_first_occurrence pts1 q pts2 [] u c hu hqc
      (by intro hmem; cases hmem) hfirst

/-- Witness for C4 at concrete points: two fragments with equal stripped
content collapse to the first, the third stays; output sorted descending
with normalized scores. -/
theorem dense_search_c4_witness :
    sortedDescB (fun r => r.score)
      (denseSearch (Except.ok
        [{ id := "1", score := 1/2, content := some " a ", metadata := [] },
         { id := "2", score := 3/5, content := some "a", metadata := [] },
         { id := "3", score := 0, content := some "b", metadata := [] }]) 2) = true :=
  (dense_search_c4
    [{ id := "1", score := 1/2, content := some " a ", metadata := [] },
     { id := "2", score := 3/5, content := some "a", metadata := [] },
     { id := "3", score := 0, content := some "b", metadata := [] }] 2
    [denseResultOf { id := "1", score := 1/2, content := some " a ", metadata := [] } " a ",
     denseResultOf { id := "3", score := 0, content := some "b", metadata := [] } "b"]
    (by with_unfolding_all decide)).2.2.1

/-! ### `result_groups` lemmas (for C2 and C1) -/

theorem fusionAdd_keys (acc : List (String × FusionGroup)) (r : SearchResult) :
    (fusionAdd acc r).map Prod.fst =
      if r.id ∈ acc.map Prod.fst then acc.map Prod.fst
      else acc.map Prod.fst ++ [r.id] := by
  induction acc with
  | nil => simp [fusionAdd]
  | cons g rest ih =>
      by_cases h : g.1 = r.id
      · simp [fusionAdd, h]
      · simp only [fusionAdd, h, if_false, List.map_cons, ih, List.mem_cons]
        by_cases h2 : r.id ∈ rest.map Prod.fst
        · simp [h2]
        · simp [h2, Ne.symm h]

theorem mem_fusionAdd_of_ne (acc : List (String × FusionGroup))
    (r : SearchResult) (pid : String) (g : FusionGroup) (hne : pid ≠ r.id) :
    ((pid, g) ∈ fusionAdd acc r ↔ (pid, g) ∈ acc) := by
  induction acc with
  | nil => simp [fusionAdd, hne]
  | cons g2 rest ih =>
      by_cases h : g2.1 = r.id
      · simp only [fusionAdd]
        rw [if_pos h]
        simp only [List.mem_cons]
        constructor
        · intro hc
          rcases hc with heq | hmem2
          · exact absurd ((congrArg Prod.fst heq).trans h) hne
          · exact Or.inr hmem2
        · intro hc
          rcases hc with heq | hmem2
          · exact absurd ((congrArg Prod.fst heq).trans h) hne
          · exact Or.inr hmem2
      · simp only [fusionAdd, h, if_false, List.mem_cons, ih]

theorem mem_fusionAdd_new (acc : List (String × FusionGroup))
    (r : SearchResult) (hno : r.id ∉ acc.map Prod.fst) (g : FusionGroup) :
    ((r.id, g) ∈ fusionAdd acc r ↔
      g = { firstResult := r, scores := [r.score],
            queries := [sourceQueryOf r] }) := by
  induction acc with
  | nil => simp [fusionAdd]
  | cons g2 rest ih =>
      simp only [List.map_cons, List.mem_cons] at hno
      push_neg at hno
      have h : ¬ g2.1 = r.id := fun he => hno.1 he.symm
      simp only [fusionAdd, h, if_false, List.mem_cons]
      rw [ih hno.2]
      constructor
      · intro hc
        rcases hc with heq | hg
        · exact absurd (congrArg Prod.fst heq).symm h
        · exact hg
      · intro hg
        exact Or.inr hg

theorem mem_fusionAdd_upd (acc : List (String × FusionGroup))
    (r : SearchResult) (g0 : FusionGroup)
    (hnd : (acc.map Prod.fst).Nodup) (hg0 : (r.id, g0) ∈ acc)
    (g : FusionGroup) :
    ((r.id, g) ∈ fusionAdd acc r ↔
      g = { g0 with scores := g0.scores ++ [r.score],
                    queries := g0.queries ++ [sourceQueryOf r] }) := by
  induction acc with
  | nil => cases hg0
  | cons g2 rest ih =>
      rw [List.map_cons, List.nodup_cons] at hnd
      by_cases h : g2.1 = r.id
      · have hg2 : g2 = (r.id, g0) := by
          rcases List.mem_cons.1 hg0 with heq | hmem
          · exact heq.symm
          · exact absurd (h ▸ List.mem_map_of_mem Prod.fst hmem) hnd.1
        subst hg2
        simp only [fusionAdd, if_pos, List.mem_cons]
        constructor
        · intro hc
          rcases hc with heq | hmem3
          · exact congrArg Prod.snd heq
          · exact absurd (List.mem_map_of_mem Prod.fst hmem3) hnd.1
        · intro hg
          rw [hg]
          exact Or.inl rfl
      · have hmem : (r.id, g0) ∈ rest := by
          rcases List.mem_cons.1 hg0 with heq | hmem
          · exact absurd (congrArg Prod.fst heq).symm h
          · exact hmem
        simp only [fusionAdd, h, if_false, List.mem_cons]
        rw [ih hnd.2 hmem]
        constructor
        · intro hc
          rcases hc with heq | hg
          · exact absurd (congrArg Prod.fst heq).symm h
          · exact hg
        · intro hg
          exact Or.inr hg

theorem groupsOf_spec (processed : List SearchResult) :
    ((groupsOf processed).map Prod.fst).Nodup ∧
    (∀ r ∈ processed, r.id ∈ (groupsOf processed).map Prod.fst) ∧
    (∀ pid g, (pid, g) ∈ groupsOf processed →
      g.scores = (processed.filter (fun r2 => r2.id = pid)).map
        (fun r2 => r2.score) ∧
      g.queries = (processed.filter (fun r2 => r2.id = pid)).map sourceQueryOf ∧
      (processed.filter (fun r2 => r2.id = pid)).head? = some g.firstResult ∧
      g.firstResult.id = pid) := by
  induction processed using List.reverseRecOn with
  | nil =>
      refine ⟨by simp [groupsOf], by simp, ?_⟩
      intro pid g hg
      simp [groupsOf] at hg
  | append_singleton l r ihl =>
      obtain ⟨hnd, hcomp, hspec⟩ := ihl
      have hfold : groupsOf (l ++ [r]) = fusionAdd (groupsOf l) r := by
        simp [groupsOf, List.foldl_append]
      refine ⟨?_, ?_, ?_⟩
      · rw [hfold, fusionAdd_keys]
        by_cases hmem : r.id ∈ (groupsOf l).map Prod.fst
        · rw [if_pos hmem]
          exact hnd
        · rw [if_neg hmem]
          exact List.Nodup.append hnd (List.nodup_singleton _)
            (fun a ha ha2 => hmem ((List.mem_singleton.1 ha2) ▸ ha))
      · intro r2 hr2
        rw [hfold, fusionAdd_keys]
        rcases List.mem_append.1 hr2 with hl2 | hr2s
        · by_cases hmem : r.id ∈ (groupsOf l).map Prod.fst
          · rw [if_pos hmem]
            exact hcomp r2 hl2
          · rw [if_neg hmem]
            exact List.mem_append_left _ (hcomp r2 hl2)
        · rw [List.mem_singleton.1 hr2s]
          by_cases hmem : r.id ∈ (groupsOf l).map Prod.fst
          · rw [if_pos hmem]
            exact hmem
          · rw [if_neg hmem]
            exact List.mem_append_right _ (List.mem_singleton_self _)
      · intro pid g hg
        rw [hfold] at hg
        by_cases hpid : pid = r.id
        · subst hpid
          by_cases hmem : r.id ∈ (groupsOf l).map Prod.fst
          · rcases List.mem_map.1 hmem with ⟨e, he, hefst⟩
            have he2 : (r.id, e.2) ∈ groupsOf l := by
              rw [← hefst]
              exact he
            obtain ⟨hsc, hq, hh, hid⟩ := hspec r.id e.2 he2
            rw [mem_fusionAdd_upd (groupsOf l) r e.2 hnd he2] at hg
            subst hg
            have hflt : (l ++ [r]).filter (fun r2 => r2.id = r.id) =
                l.filter (fun r2 => r2.id = r.id) ++ [r] := by
              rw [List.filter_append]
              simp [List.filter]
            refine ⟨?_, ?_, ?_, ?_⟩
            · rw [hflt, List.map_append, ← hsc]
              rfl
            · rw [hflt, List.map_append, ← hq]
              rfl
            · rw [hflt, List.head?_append, hh]
              rfl
            · exact hid
          · rw [mem_fusionAdd_new (groupsOf l) r hmem] at hg
            subst hg
            have hflt : (l ++ [r]).filter (fun r2 => r2.id = r.id) = [r] := by
              rw [List.filter_append]
              have h0 : l.filter (fun r2 => r2.id = r.id) = [] := by
                rw [List.filter_eq_nil_iff]
                intro a ha hpa
                rw [decide_eq_true_eq] at hpa
                exact hmem (hpa ▸ hcomp a ha)
              simp [h0, List.filter]
            rw [hflt]
            exact ⟨rfl, rfl, rfl, rfl⟩
        · rw [mem_fusionAdd_of_ne (groupsOf l) r pid g hpid] at hg
          obtain ⟨hsc, hq, hh, hid⟩ := hspec pid g hg
          have hflt : (l ++ [r]).filter (fun r2 => r2.id = pid) =
              l.filter (fun r2 => r2.id = pid) := by
            rw [List.filter_append]
            have hdec : (decide (r.id = pid)) = false :=
              decide_eq_false (fun he => hpid he.symm)
            simp [List.filter, hdec]
          rw [hflt]
          exact ⟨hsc, hq, hh, hid⟩

theorem fuse_ids_nodup (all : List SearchResult) :
    ((fuseMultiQueryResults all).map (fun r => r.id)).Nodup := by
  have hperm : List.Perm ((fuseMultiQueryResults all).map (fun r => r.id))
      (((groupsOf all).map (fun e => fuseGroup e.2)).map (fun r => r.id)) :=
    (perm_sortDescBy _ _).map _
  rw [List.Perm.nodup_iff hperm, List.map_map]
  have hids : ((groupsOf all).map ((fun r => r.id) ∘ (fun e => fuseGroup e.2))) =
      (groupsOf all).map Prod.fst := by
    apply List.map_congr_left
    intro e he
    exact ((groupsOf_spec all).2.2 e.1 e.2 he).2.2.2
  rw [hids]
  exact (groupsOf_spec all).1

theorem validate_ids_sublist (query : String) (results : List SearchResult) :
    List.Sublist ((validateSearchQuality query results).map (fun r => r.id))
      (results.map (fun r => r.id)) := by
  rw [validateSearchQuality]
  by_cases hk : (extractKeywords query).isEmpty
  · rw [if_pos hk]
  · rw [if_neg hk]
    induction results with
    | nil => simp
    | cons r rest ih =>
        rw [List.filterMap_cons]
        by_cases hcond : 1/10 < relevanceRatio (extractKeywords query) r.content ∨
            7/10 < min 1 (r.score * (7/10 + 3/10 *
              relevanceRatio (extractKeywords query) r.content))
        · simp only [if_pos hcond]
          exact List.Sublist.cons₂ _ ih
        · simp only [if_neg hcond]
          exact List.Sublist.cons _ ih

/-- Claim C2: multi-query fusion groups results by document id; a group's
fused score is `max_score + 0.05 × (number of distinct source-query tags
in the group's `query` metadata)`; `multi_query_count` and the
`{avg_score, max_score, diversity_bonus}` breakdown are attached to the
fused result's metadata; the output is sorted descending by fused score
with one result per document id; a document found by 2 distinct queries
with scores {0.9, 0.5} fuses to 1.0, and one found by a single query with
score 0.9 fuses to 0.95. -/
theorem fuse_multi_query_c2 (allResults : List SearchResult) :
    sortedDescB (fun r => r.score) (fuseMultiQueryResults allResults) = true ∧
    (∀ r2 ∈ fuseMultiQueryResults allResults,
      (allResults.filter (fun r => r.id = r2.id)) ≠ [] ∧
      r2.score =
        maxOfScores ((allResults.filter (fun r => r.id = r2.id)).map
          (fun r => r.score)) +
        ((((allResults.filter (fun r => r.id = r2.id)).map
          sourceQueryOf).dedup.length : ℚ)) * (5/100) ∧
      dictGet r2.metadata "multi_query_count" =
        some (PyVal.int ((allResults.filter (fun r => r.id = r2.id)).length)) ∧
      dictGet r2.metadata "score_details" =
        some (PyVal.scoreDetails
          (((allResults.filter (fun r => r.id = r2.id)).map
              (fun r => r.score)).sum /
            (((allResults.filter (fun r => r.id = r2.id)).length : ℚ)))
          (maxOfScores ((allResults.filter (fun r => r.id = r2.id)).map
            (fun r => r.score)))
          ((((allResults.filter (fun r => r.id = r2.id)).map
            sourceQueryOf).dedup.length : ℚ) * (5/100)))) ∧
    (∀ r ∈ allResults, ∃ r2 ∈ fuseMultiQueryResults allResults, r2.id = r.id) ∧
    ((fuseMultiQueryResults allResults).map (fun r => r.id)).Nodup ∧
    ((fuseMultiQueryResults
        [{ id := "d1", content := "c", score := 9/10,
           metadata := [("query", PyVal.str "q1")] },
         { id := "d1", content := "c", score := 1/2,
           metadata := [("query", PyVal.str "q2")] }]).map
        (fun r => (r.id, r.score)) = [("d1", 1)] ∧
      (fuseMultiQueryResults
        [{ id := "d2", content := "c", score := 9/10,
           metadata := [("query", PyVal.str "q1")] }]).map
        (fun r => (r.id, r.score)) = [("d2", 19/20)]) := by
  obtain ⟨hnd, hcomp, hspec⟩ := groupsOf_spec allResults
  refine ⟨?_, ?_, ?_, fuse_ids_nodup allResults, ?_, ?_⟩
  · exact sortedDescB_sortDescBy _ _
  · intro r2 hr2
    have hr2m : r2 ∈ (groupsOf allResults).map (fun e => fuseGroup e.2) :=
      (mem_sortDescBy _ _ _).1 hr2
    rcases List.mem_map.1 hr2m with ⟨e, he, hre⟩
    obtain ⟨hsc, hq, hh, hid⟩ := hspec e.1 e.2 he
    have hid2 : r2.id = e.1 := by rw [← hre]; exact hid
    rw [hid2]
    subst hre
    refine ⟨?_, ?_, ?_, ?_⟩
    · intro h0
      rw [h0] at hh
      cases hh
    · show maxOfScores e.2.scores + ((e.2.queries.dedup.length : ℚ)) * (5/100) = _
      rw [hsc, hq]
    · show dictGet (dictSet (dictSet e.2.firstResult.metadata "multi_query_count"
          (PyVal.int e.2.scores.length)) "score_details"
          (PyVal.scoreDetails _ _ _)) "multi_query_count" = _
      rw [dictGet_dictSet_other _ _ _ _ (by decide),
        dictGet_dictSet_same]
      rw [hsc, List.length_map]
    · show dictGet (dictSet (dictSet e.2.firstResult.metadata "multi_query_count"
          (PyVal.int e.2.scores.length)) "score_details"
          (PyVal.scoreDetails (e.2.scores.sum / (e.2.scores.length : ℚ))
            (maxOfScores e.2.scores)
            ((e.2.queries.dedup.length : ℚ) * (5/100)))) "score_details" = _
      rw [dictGet_dictSet_same]
      rw [hsc, hq, List.length_map]
  · intro r hr
    rcases List.mem_map.1 (hcomp r hr) with ⟨e, he, hefst⟩
    refine ⟨fuseGroup e.2, (mem_sortDescBy _ _ _).2 (List.mem_map_of_mem _ he), ?_⟩
    rw [show (fuseGroup e.2).id = e.2.firstResult.id from rfl,
      ((hspec e.1 e.2 he).2.2.2), hefst]
  · with_unfolding_all decide
  · with_unfolding_all decide

/-- Witness for C2: applying the fusion theorem at two concrete results of
one document surfaced by two distinct queries. -/
theorem fuse_multi_query_c2_witness :
    ∀ x ∈ (fuseMultiQueryResults
        [{ id := "d1", content := "c", score := 9/10,
           metadata := [("query", PyVal.str "q1")] },
         { id := "d1", content := "c", score := 1/2,
           metadata := [("query", PyVal.str "q2")] }]).map
        (fun r => (r.id, r.score)), x = ("d1", 1) := by
  have h := (fuse_multi_query_c2
    [{ id := "d1", content := "c", score := 9/10,
       metadata := [("query", PyVal.str "q1")] },
     { id := "d1", content := "c", score := 1/2,
       metadata := [("query", PyVal.str "q2")] }]).2.2.2.2.1
  rw [h]
  intro x hx
  simpa using hx

/-- The store response used in the C1 counterexample: three fragments,
sorted descending, all scores `≥ 0.5`, distinct ids. -/
def c1Store : List SearchResult :=
  [{ id := "1", content := "가", score := 9/10, metadata := [] },
   { id := "2", content := "가 나", score := 4/5, metadata := [] },
   { id := "3", content := "가", score := 11/20, metadata := [] }]

/-- Claim C1 counterexample: for the query `가 나` with `limit=5`,
`min_score=0.5` and a store response that is sorted descending with all
scores `≥ 0.5` and distinct ids, `search` returns scores
`[0.765, 0.8, 0.4675]`: not sorted descending and containing a score
below `min_score` — `_validate_search_quality` rescales each score by
`0.7 + 0.3 × relevance_ratio` after the threshold was applied and never
re-sorts. -/
theorem search_pipeline_c1_counterexample :
    sortedDescB (fun r => r.score) c1Store = true ∧
    c1Store.all (fun r => decide ((1:ℚ)/2 ≤ r.score)) = true ∧
    ((c1Store.map (fun r => r.id)).Nodup) ∧
    (searchPipeline "가 나" 5 false [c1Store]).map (fun r => r.score) =
      [153/200, 4/5, 187/400] ∧
    (searchPipeline "가 나" 5 false [c1Store]).all
      (fun r => decide ((1:ℚ)/2 ≤ r.score)) = false ∧
    sortedDescB (fun r => r.score)
      (searchPipeline "가 나" 5 false [c1Store]) = false := by
  refine ⟨?_, ?_, ?_, ?_, ?_, ?_⟩ <;> with_unfolding_all decide

/-- Claim C1 as amended: `search` returns at most `limit` results and no
two returned results share an id (grouping by id in multi-query fusion;
the store's per-response id uniqueness in the single-query case); the
returned scores, however, are the quality-adjusted ones, which may fall
below `min_score`, and the adjusted list is not re-sorted. -/
theorem search_pipeline_c1_amended (query : String) (limit : Nat)
    (multi : Bool) (perQuery : List (List SearchResult))
    (hids : ∀ l ∈ perQuery, (l.map (fun r => r.id)).Nodup)
    (hsingle : multi = false → ∃ l, perQuery = [l]) :
    (searchPipeline query limit multi perQuery).length ≤ limit ∧
    ((searchPipeline query limit multi perQuery).map (fun r => r.id)).Nodup := by
  have hstep : ∀ fin : List SearchResult, ((fin.map (fun r => r.id)).Nodup) →
      (((validateSearchQuality query fin).take limit).map
        (fun r => r.id)).Nodup := by
    intro fin hfin
    have hnd1 := List.Nodup.sublist (validate_ids_sublist query fin) hfin
    rw [List.map_take]
    exact List.Nodup.sublist (List.take_sublist _ _) hnd1
  constructor
  · simp only [searchPipeline, List.length_take]
    exact min_le_left _ _
  · cases multi with
    | true =>
        simp only [searchPipeline, if_true]
        exact hstep _ (fuse_ids_nodup _)
    | false =>
        rcases hsingle rfl with ⟨l, hl⟩
        subst hl
        simp only [searchPipeline, if_false]
        have hflat : ([l] : List (List SearchResult)).flatten = l := by
          simp
        rw [hflat]
        exact hstep l (hids l (List.mem_singleton_self l))

/-- Witness for the amended C1 at the counterexample's store response. -/
theorem search_pipeline_c1_amended_witness :
    (searchPipeline "가 나" 5 false [c1Store]).length ≤ 5 ∧
    ((searchPipeline "가 나" 5 false [c1Store]).map (fun r => r.id)).Nodup :=
  search_pipeline_c1_amended "가 나" 5 false [c1Store]
    (by
      intro l hl
      rw [List.mem_singleton.1 hl]
      with_unfolding_all decide)
    (fun _ => ⟨c1Store, rfl⟩)

/-! ### `doc_scores` lemmas (for C3) -/

theorem rrfLookup_rrfAdd_same (acc : List RRFEntry) (p : QPoint) (delta : ℚ) :
    rrfLookup (rrfAdd acc p delta) p.id =
      some ((rrfLookup acc p.id).getD 0 + delta) := by
  induction acc with
  | nil => simp [rrfAdd, rrfLookup, zero_add]
  | cons e rest ih =>
      by_cases h : e.pid = p.id
      · simp [rrfAdd, h, rrfLookup]
      · simp only [rrfAdd, h, if_false, rrfLookup, ih]

theorem rrfLookup_rrfAdd_other (acc : List RRFEntry) (p : QPoint) (delta : ℚ)
    (pid : String) (hne : pid ≠ p.id) :
    rrfLookup (rrfAdd acc p delta) pid = rrfLookup acc pid := by
  induction acc with
  | nil => simp [rrfAdd, rrfLookup, Ne.symm hne]
  | cons e rest ih =>
      by_cases h : e.pid = p.id
      · have hne2 : ¬ (e.pid = pid) := fun he => hne (he.symm.trans h)
        simp [rrfAdd, h, rrfLookup, hne2, Ne.symm hne]
      · by_cases h2 : e.pid = pid
        · simp [rrfAdd, h, rrfLookup, h2, hne]
        · simp [rrfAdd, h, rrfLookup, h2, hne, ih]

theorem rrfLookup_rrfAccum_not_mem (w : ℚ) (rank : Nat) (pts : List QPoint)
    (acc : List RRFEntry) (pid : String) (hno : pid ∉ pts.map QPoint.id) :
    rrfLookup (rrfAccum w rank pts acc) pid = rrfLookup acc pid := by
  induction pts generalizing rank acc with
  | nil => rfl
  | cons p rest ih =>
      simp only [List.map_cons, List.mem_cons] at hno
      push_neg at hno
      simp only [rrfAccum]
      rw [ih (rank + 1) _ hno.2]
      exact rrfLookup_rrfAdd_other acc p _ pid hno.1

theorem rrfLookup_rrfAccum_head (w : ℚ) (rank : Nat) (p : QPoint)
    (rest : List QPoint) (acc : List RRFEntry)
    (hno : p.id ∉ rest.map QPoint.id) :
    rrfLookup (rrfAccum w rank (p :: rest) acc) p.id =
      some ((rrfLookup acc p.id).getD 0 + (1 / (60 + (rank : ℚ) + 1)) * w) := by
  simp only [rrfAccum]
  rw [rrfLookup_rrfAccum_not_mem w (rank + 1) rest _ p.id hno]
  exact rrfLookup_rrfAdd_same acc p _

theorem rrfLookup_rrfAccum_at (w : ℚ) (pts : List QPoint)
    (hnd : (pts.map QPoint.id).Nodup) (rank : Nat) (acc : List RRFEntry)
    (i : Nat) (hi : i < pts.length) :
    rrfLookup (rrfAccum w rank pts acc) (pts.get ⟨i, hi⟩).id =
      some ((rrfLookup acc (pts.get ⟨i, hi⟩).id).getD 0 +
        (1 / (60 + ((rank + i : Nat) : ℚ) + 1)) * w) := by
  induction pts generalizing rank acc i with
  | nil => exact absurd hi (Nat.not_lt_zero i)
  | cons p rest ih =>
      rw [List.map_cons, List.nodup_cons] at hnd
      cases i with
      | zero =>
          have h := rrfLookup_rrfAccum_head w rank p rest acc hnd.1
          simpa using h
      | succ j =>
          have hj : j < rest.length := Nat.lt_of_succ_lt_succ hi
          have hget : ((p :: rest).get ⟨j + 1, hi⟩) = rest.get ⟨j, hj⟩ := rfl
          simp only [rrfAccum, hget]
          rw [ih hnd.2 (rank + 1) _ j hj]
          have hne : (rest.get ⟨j, hj⟩).id ≠ p.id := by
            intro he
            exact hnd.1 (he ▸ List.mem_map_of_mem QPoint.id (rest.get_mem j hj))
          rw [rrfLookup_rrfAdd_other acc p _ _ hne]
          have harith : rank + 1 + j = rank + (j + 1) := by omega
          rw [harith]

theorem rrfAdd_keys (acc : List RRFEntry) (p : QPoint) (delta : ℚ) :
    (rrfAdd acc p delta).map RRFEntry.pid =
      if p.id ∈ acc.map RRFEntry.pid then acc.map RRFEntry.pid
      else acc.map RRFEntry.pid ++ [p.id] := by
  induction acc with
  | nil => simp [rrfAdd]
  | cons e rest ih =>
      by_cases h : e.pid = p.id
      · simp [rrfAdd, h]
      · simp only [rrfAdd, h, if_false, List.map_cons, ih, List.mem_cons]
        by_cases h2 : p.id ∈ rest.map RRFEntry.pid
        · simp [h2]
        · simp [h2, Ne.symm h]

theorem rrfAdd_keys_nodup (acc : List RRFEntry) (p : QPoint) (delta : ℚ)
    (hnd : (acc.map RRFEntry.pid).Nodup) :
    ((rrfAdd acc p delta).map RRFEntry.pid).Nodup := by
  rw [rrfAdd_keys]
  by_cases h : p.id ∈ acc.map RRFEntry.pid
  · rw [if_pos h]
    exact hnd
  · rw [if_neg h]
    exact List.Nodup.append hnd (List.nodup_singleton _)
      (fun a ha ha2 => h ((List.mem_singleton.1 ha2) ▸ ha))

theorem rrfAccum_keys_nodup (w : ℚ) (rank : Nat) (pts : List QPoint)
    (acc : List RRFEntry) (hnd : (acc.map RRFEntry.pid).Nodup) :
    ((rrfAccum w rank pts acc).map RRFEntry.pid).Nodup := by
  induction pts generalizing rank acc with
  | nil => exact hnd
  | cons p rest ih =>
      simp only [rrfAccum]
      exact ih (rank + 1) _ (rrfAdd_keys_nodup acc p _ hnd)

theorem rrfAdd_entry_pid (acc : List RRFEntry) (p : QPoint) (delta : ℚ)
    (hinv : ∀ e ∈ acc, e.pid = e.point.id) :
    ∀ e ∈ rrfAdd acc p delta, e.pid = e.point.id := by
  induction acc with
  | nil =>
      intro e he
      rw [List.mem_singleton.1 he]
  | cons e2 rest ih =>
      intro e he
      by_cases h : e2.pid = p.id
      · simp only [rrfAdd] at he
        rw [if_pos h] at he
        rcases List.mem_cons.1 he with heq | hmem
        · rw [heq]
          exact hinv e2 (List.mem_cons_self e2 rest)
        · exact hinv e (List.mem_cons_of_mem e2 hmem)
      · simp only [rrfAdd, h, if_false] at he
        rcases List.mem_cons.1 he with heq | hmem
        · rw [heq]
          exact hinv e2 (List.mem_cons_self e2 rest)
        · exact ih (fun e3 he3 => hinv e3 (List.mem_cons_of_mem e2 he3)) e hmem

theorem rrfAccum_entry_pid (w : ℚ) (rank : Nat) (pts : List QPoint)
    (acc : List RRFEntry) (hinv : ∀ e ∈ acc, e.pid = e.point.id) :
    ∀ e ∈ rrfAccum w rank pts acc, e.pid = e.point.id := by
  induction pts generalizing rank acc with
  | nil => exact hinv
  | cons p rest ih =>
      simp only [rrfAccum]
      exact ih (rank + 1) _ (rrfAdd_entry_pid acc p _ hinv)

theorem rrfLookup_of_mem (acc : List RRFEntry)
    (hnd : (acc.map RRFEntry.pid).Nodup) (e : RRFEntry) (he : e ∈ acc) :
    rrfLookup acc e.pid = some e.rrfScore := by
  induction acc with
  | nil => cases he
  | cons e2 rest ih =>
      rw [List.map_cons, List.nodup_cons] at hnd
      rcases List.mem_cons.1 he with heq | hmem
      · subst heq
        simp [rrfLookup]
      · have hne : ¬ (e2.pid = e.pid) := by
          intro h2
          exact hnd.1 (h2 ▸ List.mem_map_of_mem RRFEntry.pid hmem)
        simp only [rrfLookup, hne, if_false]
        exact ih hnd.2 hmem

theorem resultOfPoint_some (p : QPoint) (sc : ℚ) (r : SearchResult)
    (h : resultOfPoint p sc = some r) : r.id = p.id ∧ r.score = sc := by
  rw [resultOfPoint] at h
  cases hc : p.content with
  | none => rw [hc] at h; cases h
  | some c =>
      rw [hc] at h
      simp only [Option.some.injEq] at h
      rw [← h]
      exact ⟨rfl, rfl⟩

theorem mapM_resultOfPoint_facts (l : List RRFEntry) (res : List SearchResult)
    (h : l.mapM (fun e => resultOfPoint e.point e.rrfScore) = some res) :
    res.map (fun r => r.score) = l.map RRFEntry.rrfScore ∧
    res.length = l.length ∧
    (∀ r ∈ res, ∃ e ∈ l, r.id = e.point.id ∧ r.score = e.rrfScore) := by
  induction l generalizing res with
  | nil =>
      simp only [List.mapM_nil, pure, Option.some.injEq] at h
      subst h
      refine ⟨rfl, rfl, ?_⟩
      intro r hr
      cases hr
  | cons e rest ih =>
      rw [List.mapM_cons] at h
      cases hre : resultOfPoint e.point e.rrfScore with
      | none => rw [hre] at h; cases h
      | some r0 =>
          rw [hre] at h
          cases hrest : rest.mapM (fun e => resultOfPoint e.point e.rrfScore) with
          | none => rw [hrest] at h; cases h
          | some res0 =>
              rw [hrest] at h
              simp only [Option.bind_eq_bind, Option.some_bind, pure,
                Option.some.injEq] at h
              subst h
              obtain ⟨hm, hl, hptw⟩ := ih res0 hrest
              obtain ⟨hid0, hsc0⟩ := resultOfPoint_some e.point e.rrfScore r0 hre
              refine ⟨?_, ?_, ?_⟩
              · rw [List.map_cons, List.map_cons, hm, hsc0]
              · rw [List.length_cons, List.length_cons, hl]
              · intro r hr
                rcases List.mem_cons.1 hr with heq | hmem
                · exact ⟨e, List.mem_cons_self e rest, heq ▸ hid0, heq ▸ hsc0⟩
                · rcases hptw r hmem with ⟨e2, he2, h1, h2⟩
                  exact ⟨e2, List.mem_cons_of_mem e he2, h1, h2⟩

theorem sortedDescB_eq_of_map_eq {α β : Type} (k1 : α → ℚ) (k2 : β → ℚ)
    (l1 : List α) (l2 : List β) (h : l1.map k1 = l2.map k2) :
    sortedDescB k1 l1 = sortedDescB k2 l2 := by
  induction l1 generalizing l2 with
  | nil =>
      cases l2 with
      | nil => rfl
      | cons y ys => simp at h
  | cons x xs ih =>
      cases l2 with
      | nil => simp at h
      | cons y ys =>
          simp only [List.map_cons, List.cons.injEq] at h
          cases xs with
          | nil =>
              cases ys with
              | nil => rfl
              | cons y2 ys2 => simp at h
          | cons x2 xs2 =>
              cases ys with
              | nil =>
                  exfalso
                  have := h.2
                  simp at this
              | cons y2 ys2 =>
                  have h2 := h.2
                  simp only [List.map_cons, List.cons.injEq] at h2
                  simp only [sortedDescB]
                  rw [h.1, h2.1]
                  rw [ih (y2 :: ys2) (by simp [h2.1, h2.2])]

/-- Claim C3: RRF fusion gives a document at 0-indexed rank `r` in one
list the contribution `(1/(60+r+1)) × weight`, summing both contributions
for documents in both lists; for disjoint lists every accumulated score is
the single-list contribution at the document's rank; a document at dense
rank 0 and sparse rank 0 accumulates `dense_weight/61 + sparse_weight/61`;
the output is sorted descending by accumulated score, truncated to
`limit`, with each returned score being the document's accumulated score;
on internal error the dense list truncated to `limit` with its original
scores is returned instead. -/
theorem rrf_fusion_c3 (densePoints sparsePoints : List QPoint) (limit : Nat)
    (dw sw : ℚ) :
    (∀ res, rrfTry densePoints sparsePoints limit dw sw = some res →
      rrfFusion densePoints sparsePoints limit dw sw = some res ∧
      sortedDescB (fun r => r.score) res = true ∧
      res.length ≤ limit ∧
      (∀ r ∈ res,
        rrfLookup (rrfAccum sw 0 sparsePoints (rrfAccum dw 0 densePoints []))
          r.id = some r.score)) ∧
    ((densePoints.map QPoint.id).Nodup → (sparsePoints.map QPoint.id).Nodup →
      (∀ pid ∈ densePoints.map QPoint.id, pid ∉ sparsePoints.map QPoint.id) →
      (∀ i, ∀ hi : i < densePoints.length,
        rrfLookup (rrfAccum sw 0 sparsePoints (rrfAccum dw 0 densePoints []))
            (densePoints.get ⟨i, hi⟩).id =
          some ((1 / (60 + (i : ℚ) + 1)) * dw)) ∧
      (∀ j, ∀ hj : j < sparsePoints.length,
        rrfLookup (rrfAccum sw 0 sparsePoints (rrfAccum dw 0 densePoints []))
            (sparsePoints.get ⟨j, hj⟩).id =
          some ((1 / (60 + (j : ℚ) + 1)) * sw))) ∧
    (∀ d0 dtl s0 stl, densePoints = d0 :: dtl → sparsePoints = s0 :: stl →
      s0.id = d0.id → d0.id ∉ dtl.map QPoint.id → d0.id ∉ stl.map QPoint.id →
      rrfLookup (rrfAccum sw 0 sparsePoints (rrfAccum dw 0 densePoints []))
          d0.id =
        some ((1 / 61) * dw + (1 / 61) * sw)) ∧
    (rrfTry densePoints sparsePoints limit dw sw = none →
      ∀ res2, (densePoints.take limit).mapM
          (fun p => resultOfPoint p p.score) = some res2 →
        rrfFusion densePoints sparsePoints limit dw sw = some res2) := by
  refine ⟨?_, ?_, ?_, ?_⟩
  · intro res h
    have hfus : rrfFusion densePoints sparsePoints limit dw sw = some res := by
      simp only [rrfFusion, h]
    simp only [rrfTry] at h
    obtain ⟨hm, hlen, hptw⟩ := mapM_resultOfPoint_facts _ res h
    have hndacc : ((rrfAccum sw 0 sparsePoints
        (rrfAccum dw 0 densePoints [])).map RRFEntry.pid).Nodup :=
      rrfAccum_keys_nodup sw 0 sparsePoints _
        (rrfAccum_keys_nodup dw 0 densePoints [] List.nodup_nil)
    have hpid : ∀ e ∈ rrfAccum sw 0 sparsePoints (rrfAccum dw 0 densePoints []),
        e.pid = e.point.id :=
      rrfAccum_entry_pid sw 0 sparsePoints _
        (rrfAccum_entry_pid dw 0 densePoints [] (by intro e he; cases he))
    refine ⟨hfus, ?_, ?_, ?_⟩
    · rw [sortedDescB_eq_of_map_eq (fun r => r.score) RRFEntry.rrfScore res _ hm]
      exact sortedDescB_take _ _ _ (sortedDescB_sortDescBy _ _)
    · rw [hlen, List.length_take]
      exact min_le_left _ _
    · intro r hr
      rcases hptw r hr with ⟨e, he, hid, hsc⟩
      have hea : e ∈ rrfAccum sw 0 sparsePoints (rrfAccum dw 0 densePoints []) :=
        (mem_sortDescBy _ _ _).1 (List.mem_of_mem_take he)
      have hl := rrfLookup_of_mem _ hndacc e hea
      rw [hid, ← hpid e hea, hl, hsc]
  · intro hdnd hsnd hdisj
    constructor
    · intro i hi
      have hmem : (densePoints.get ⟨i, hi⟩).id ∈ densePoints.map QPoint.id :=
        List.mem_map_of_mem QPoint.id (densePoints.get_mem i hi)
      rw [rrfLookup_rrfAccum_not_mem sw 0 sparsePoints _ _ (hdisj _ hmem)]
      rw [rrfLookup_rrfAccum_at dw densePoints hdnd 0 [] i hi]
      simp [rrfLookup]
    · intro j hj
      have hmem : (sparsePoints.get ⟨j, hj⟩).id ∈ sparsePoints.map QPoint.id :=
        List.mem_map_of_mem QPoint.id (sparsePoints.get_mem j hj)
      have hnotd : (sparsePoints.get ⟨j, hj⟩).id ∉ densePoints.map QPoint.id :=
        fun hin => (hdisj _ hin) hmem
      rw [rrfLookup_rrfAccum_at sw sparsePoints hsnd 0 _ j hj]
      rw [rrfLookup_rrfAccum_not_mem dw 0 densePoints [] _ hnotd]
      simp [rrfLookup]
  · intro d0 dtl s0 stl hd hs hsid hd0 hs0
    subst hd
    subst hs
    rw [← hsid]
    rw [rrfLookup_rrfAccum_head sw 0 s0 stl _ (hsid ▸ hs0)]
    rw [hsid]
    rw [rrfLookup_rrfAccum_head dw 0 d0 dtl [] hd0]
    simp only [rrfLookup, Option.getD_some, Option.getD_none]
    norm_num
  · intro h res2 hres2
    simp only [rrfFusion, h]
    exact hres2

/-- Dense list for the C3 witness. -/
def c3Dense : List QPoint :=
  [{ id := "1", score := 1/2, content := some "a", metadata := [] }]

/-- Sparse list for the C3 witness. -/
def c3Sparse : List QPoint :=
  [{ id := "2", score := 9, content := some "b", metadata := [] }]

/-- Witness for C3: disjoint one-element dense and sparse lists with
weights 3/5 and 2/5; the dense document's accumulated score is its
single-list contribution at rank 0. -/
theorem rrf_fusion_c3_witness :
    rrfLookup (rrfAccum (2/5) 0 c3Sparse (rrfAccum (3/5) 0 c3Dense []))
      (c3Dense.get ⟨0, by decide⟩).id =
      some ((1 / (60 + ((0 : Nat) : ℚ) + 1)) * (3/5)) := by
  have h := ((rrf_fusion_c3 c3Dense c3Sparse 10 (3/5) (2/5)).2.1
    (by decide) (by decide)
    (by intro pid hp; simp [c3Dense] at hp; simp [c3Sparse, hp])).1 0 (by decide)
  simpa using h

/-! ### LLM-reranker lemmas (for C6) -/

theorem parseEntry_score_bounds (item : JsonVal) (qi qs : ℚ)
    (h : parseEntry item = some (qi, qs)) : 0 ≤ qs ∧ qs ≤ 1 := by
  cases item with
  | obj fields =>
      simp only [parseEntry] at h
      cases hidx : (jsonObjGet fields "index").getD (JsonVal.num 0) <;>
        rw [hidx] at h <;>
        cases hsc : (jsonObjGet fields "score").getD (JsonVal.num (1/2)) <;>
        rw [hsc] at h <;>
        simp only [Option.some.injEq, Prod.mk.injEq, reduceCtorEq] at h
      case num.num qi2 qs2 =>
        rw [← h.2]
        exact ⟨le_max_left 0 _, max_le zero_le_one (min_le_left 1 qs2)⟩
  | null => simp [parseEntry] at h
  | bool b => simp [parseEntry] at h
  | num q => simp [parseEntry] at h
  | str s2 => simp [parseEntry] at h
  | arr l => simp [parseEntry] at h

theorem mapM_parseEntry_bounds (items : List JsonVal)
    (entries : List (ℚ × ℚ)) (h : items.mapM parseEntry = some entries) :
    ∀ e ∈ entries, 0 ≤ e.2 ∧ e.2 ≤ 1 := by
  induction items generalizing entries with
  | nil =>
      simp only [List.mapM_nil, pure, Option.some.injEq] at h
      subst h
      intro e he
      cases he
  | cons item rest ih =>
      rw [List.mapM_cons] at h
      cases hre : parseEntry item with
      | none => rw [hre] at h; cases h
      | some e0 =>
          rw [hre] at h
          cases hrest : rest.mapM parseEntry with
          | none => rw [hrest] at h; cases h
          | some es0 =>
              rw [hrest] at h
              simp only [Option.bind_eq_bind, Option.some_bind, pure,
                Option.some.injEq] at h
              subst h
              intro e he
              rcases List.mem_cons.1 he with heq | hmem
              · subst heq
                exact parseEntry_score_bounds item e.1 e.2 hre
              · exact ih es0 hrest e hmem

theorem buildReranked_eq (results : List SearchResult)
    (entries : List (ℚ × ℚ)) (built : List SearchResult)
    (h : buildReranked results entries = some built) :
    built = entries.filterMap (fun e =>
      if 0 ≤ e.1 ∧ e.1 < (results.length : ℚ) then
        (results[e.1.num.toNat]?).map (fun orig => { orig with score := e.2 })
      else none) := by
  induction entries generalizing built with
  | nil =>
      simp only [buildReranked, Option.some.injEq] at h
      subst h
      rfl
  | cons e rest ih =>
      rw [buildReranked] at h
      rw [List.filterMap_cons]
      by_cases hin : 0 ≤ e.1 ∧ e.1 < (results.length : ℚ)
      · rw [if_pos hin] at h
        simp only [if_pos hin]
        by_cases hden : e.1.den = 1
        · rw [if_pos hden] at h
          cases hget : results[e.1.num.toNat]? with
          | none => rw [hget] at h; cases h
          | some orig =>
              rw [hget] at h
              cases hrec : buildReranked results rest with
              | none => rw [hrec] at h; cases h
              | some acc =>
                  rw [hrec] at h
                  simp only [Option.some.injEq] at h
                  subst h
                  rw [ih acc hrec]
                  rfl
        · rw [if_neg hden] at h
          cases h
      · rw [if_neg hin] at h
        simp only [if_neg hin]
        exact ih built h

theorem buildReranked_scores (results : List SearchResult)
    (entries : List (ℚ × ℚ)) (built : List SearchResult)
    (h : buildReranked results entries = some built) :
    ∀ r ∈ built, ∃ e ∈ entries, r.score = e.2 := by
  induction entries generalizing built with
  | nil =>
      simp only [buildReranked, Option.some.injEq] at h
      subst h
      intro r hr
      cases hr
  | cons e rest ih =>
      rw [buildReranked] at h
      by_cases hin : 0 ≤ e.1 ∧ e.1 < (results.length : ℚ)
      · rw [if_pos hin] at h
        by_cases hden : e.1.den = 1
        · rw [if_pos hden] at h
          cases hget : results[e.1.num.toNat]? with
          | none => rw [hget] at h; cases h
          | some orig =>
              rw [hget] at h
              cases hrec : buildReranked results rest with
              | none => rw [hrec] at h; cases h
              | some acc =>
                  rw [hrec] at h
                  simp only [Option.some.injEq] at h
                  subst h
                  intro r hr
                  rcases List.mem_cons.1 hr with heq | hmem
                  · exact ⟨e, List.mem_cons_self e rest, by rw [heq]⟩
                  · rcases ih acc hrec r hmem with ⟨e2, he2, hsc⟩
                    exact ⟨e2, List.mem_cons_of_mem e he2, hsc⟩
        · rw [if_neg hden] at h
          cases h
      · rw [if_neg hin] at h
        intro r hr
        rcases ih built h r hr with ⟨e2, he2, hsc⟩
        exact ⟨e2, List.mem_cons_of_mem e he2, hsc⟩

/-- Claim C6 as amended: when the LLM response is empty or cannot be
parsed as JSON either whole or by extracting the greedy
first-open-brace-to-last-close-brace span (the code's `re.search` with a
greedy `.*`, not the first top-level span), `_rerank_gpt5_nano` returns
the original results sorted descending by pre-rerank score, truncated to
`top_k`, without raising; when parsing succeeds, entries are truncated to
`top_k`, entries with an index outside `[0, len(results))` are discarded
silently, every surviving entry yields a result whose relevance score is
clamped into `[0, 1]`, and if no entry survives the original results
truncated to `top_k` are returned. -/
theorem rerank_gpt5_c6_amended (results : List SearchResult) (topK : Nat) :
    (rerankGpt5Nano results topK none =
      (sortDescBy (fun r => r.score) results).take topK) ∧
    (rerankGpt5Nano results topK (some "") =
      (sortDescBy (fun r => r.score) results).take topK) ∧
    (∀ raw, raw ≠ "" → jsonLoads (pyStrip raw) = none →
      (greedyBraceSpan (pyStrip raw)).bind jsonLoads = none →
      rerankGpt5Nano results topK (some raw) =
        (sortDescBy (fun r => r.score) results).take topK) ∧
    (∀ raw d, raw ≠ "" → jsonLoads (pyStrip raw) = some d →
      rerankGpt5Nano results topK (some raw) =
        processRerankData results topK d) ∧
    (∀ raw d, raw ≠ "" → jsonLoads (pyStrip raw) = none →
      (greedyBraceSpan (pyStrip raw)).bind jsonLoads = some d →
      rerankGpt5Nano results topK (some raw) =
        processRerankData results topK d) ∧
    (∀ d items entries built, getResultsList d = some items →
      (items.take topK).mapM parseEntry = some entries →
      buildReranked results entries = some built →
      (built = entries.filterMap (fun e =>
        if 0 ≤ e.1 ∧ e.1 < (results.length : ℚ) then
          (results[e.1.num.toNat]?).map (fun orig => { orig with score := e.2 })
        else none)) ∧
      (∀ r ∈ processRerankData results topK d, built ≠ [] →
        0 ≤ r.score ∧ r.score ≤ 1) ∧
      (built = [] →
        processRerankData results topK d = results.take topK)) := by
  refine ⟨rfl, rfl, ?_, ?_, ?_, ?_⟩
  · intro raw h1 h2 h3
    simp only [rerankGpt5Nano, if_neg h1, h2]
    cases hspan : greedyBraceSpan (pyStrip raw) with
    | none => rfl
    | some span =>
        rw [hspan, Option.some_bind] at h3
        show (match jsonLoads span with
          | none => List.take topK (sortDescBy (fun r => r.score) results)
          | some d => processRerankData results topK d) =
          List.take topK (sortDescBy (fun r => r.score) results)
        rw [h3]
  · intro raw d h1 h2
    simp only [rerankGpt5Nano, if_neg h1, h2]
  · intro raw d h1 h2 h3
    simp only [rerankGpt5Nano, if_neg h1, h2]
    rcases Option.bind_eq_some.1 h3 with ⟨span, hspan, hload⟩
    rw [hspan]
    show (match jsonLoads span with
      | none => List.take topK (sortDescBy (fun r => r.score) results)
      | some d2 => processRerankData results topK d2) =
      processRerankData results topK d
    rw [hload]
  · intro d items entries built hitems hentries hbuilt
    have hproc : processRerankData results topK d =
        (if (sortDescBy (fun r => r.score) built).isEmpty then results.take topK
         else sortDescBy (fun r => r.score) built) := by
      simp only [processRerankData, hitems, hentries, hbuilt]
    refine ⟨buildReranked_eq results entries built hbuilt, ?_, ?_⟩
    · intro r hr hne
      have hne2 : (sortDescBy (fun r2 => r2.score) built).isEmpty = false := by
        cases hb : sortDescBy (fun r2 => r2.score) built with
        | nil =>
            exfalso
            have := length_sortDescBy (fun r2 => r2.score) built
            rw [hb] at this
            exact hne (List.length_eq_zero.1 this.symm)
        | cons a l => rfl
      rw [hproc, hne2] at hr
      simp only [Bool.false_eq_true, if_false] at hr
      have hrb : r ∈ built := (mem_sortDescBy _ _ _).1 hr
      rcases buildReranked_scores results entries built hbuilt r hrb with
        ⟨e, he, hsc⟩
      have hb := mapM_parseEntry_bounds _ entries hentries e he
      rw [hsc]
      exact hb
    · intro hb
      rw [hproc, hb]
      rfl

/-- Results list for the C6 counterexample: a single pre-rerank result
whose score `1.5` lies outside `[0, 1]`. -/
def c6Results : List SearchResult :=
  [{ id := "a", content := "c", score := 3/2, metadata := [] }]

/-- LLM response for the C6 counterexample: a valid JSON object followed
by trailing text that contains another close brace. -/
def c6Response : String :=
  "\x7b\"results\": [\x7b\"index\": 0, \"score\": 1\x7d]\x7d x\x7d"

/-- Claim C6 counterexample: the whole response does not parse, the first
top-level brace span does parse, yet `_rerank_gpt5_nano` does not use it:
the code extracts greedily from the first open brace to the last close
brace, that span does not parse, and the function falls back to the
original results — whose score `1.5` is not clamped into `[0, 1]`,
contradicting the claim's "when parsing succeeds" conjunct. -/
theorem rerank_gpt5_c6_counterexample :
    jsonLoads (pyStrip c6Response) = none ∧
    ((firstTopLevelBraceSpan (pyStrip c6Response)).bind jsonLoads).isSome
      = true ∧
    (greedyBraceSpan (pyStrip c6Response)).bind jsonLoads = none ∧
    rerankGpt5Nano c6Results 5 (some c6Response) = c6Results ∧
    ¬ ((3 : ℚ)/2 ≤ 1) ∧
    (c6Results.map (fun r => r.score)) = [3/2] := by
  refine ⟨rfl, rfl, rfl, ?_, ?_, rfl⟩
  · with_unfolding_all decide
  · with_unfolding_all decide

/-- Witness for the amended C6: a non-JSON response falls back to the
original results sorted by pre-rerank score, truncated to `top_k`. -/
theorem rerank_gpt5_c6_amended_witness :
    rerankGpt5Nano
      [{ id := "a", content := "c", score := 1, metadata := [] },
       { id := "b", content := "d", score := 2, metadata := [] }] 1
      (some "no json here") =
    (sortDescBy (fun r => r.score)
      [{ id := "a", content := "c", score := 1, metadata := [] },
       { id := "b", content := "d", score := 2, metadata := [] }]).take 1 :=
  (rerank_gpt5_c6_amended
    [{ id := "a", content := "c", score := 1, metadata := [] },
     { id := "b", content := "d", score := 2, metadata := [] }] 1).2.2.1
    "no json here" (by decide) rfl rfl

/-- Claim C7 as amended: provider exceptions are caught inside the
provider helper and never propagate; the helper then returns the backing
`results` list (with any score mutations already applied), and `rerank`
passes that through its final `min_score` filter — so on a provider
failure the caller receives the original results filtered by `min_score`
(order preserved), not unchanged; when the provider succeeds, the final
`min_score` filter is applied to the reranked scores; when reranking is
disabled or no provider is available the results are returned unchanged. -/
theorem rerank_wrapper_c7_amended (searchResults : List SearchResult)
    (minScore : ℚ) (resp : Except Unit (List (Nat × ℚ)))
    (hne : searchResults ≠ []) :
    (rerankPipeline false searchResults minScore none = searchResults) ∧
    (rerankPipeline true searchResults minScore none = searchResults) ∧
    (resp = Except.error () →
      rerankJina searchResults resp = searchResults ∧
      rerankPipeline true searchResults minScore
          (some (rerankJina searchResults resp)) =
        searchResults.filter (fun r => minScore ≤ r.score)) ∧
    (∀ entries, resp = Except.ok entries →
      (applyProviderEntries searchResults entries []).2.2 = false →
      (applyProviderEntries searchResults entries []).2.1 ≠ [] →
      rerankPipeline true searchResults minScore
          (some (rerankJina searchResults resp)) =
        ((applyProviderEntries searchResults entries []).2.1).filter
          (fun r => minScore ≤ r.score)) := by
  have heb : searchResults.isEmpty = false := by
    cases searchResults with
    | nil => exact absurd rfl hne
    | cons a l => rfl
  refine ⟨rfl, ?_, ?_, ?_⟩
  · simp [rerankPipeline, heb]
  · intro hresp
    subst hresp
    refine ⟨rfl, ?_⟩
    have hj : rerankJina searchResults (Except.error ()) = searchResults := rfl
    simp [rerankPipeline, heb, hj, hne]
  · intro entries hresp hraised hnonempty
    subst hresp
    have hjina : rerankJina searchResults (Except.ok entries) =
        (applyProviderEntries searchResults entries []).2.1 := by
      simp only [rerankJina, hraised]
      rfl
    rw [hjina]
    have heb2 : ((applyProviderEntries searchResults entries []).2.1).isEmpty
        = false := by
      cases hl : (applyProviderEntries searchResults entries []).2.1 with
      | nil => exact absurd hl hnonempty
      | cons a l => rfl
    simp [rerankPipeline, heb, heb2]

/-- Results list for the C7 counterexample: one result scored `0.3`,
below the rerank `min_score` of `0.4`. -/
def c7Results : List SearchResult :=
  [{ id := "a", content := "c", score := 3/10, metadata := [] }]

/-- Claim C7 counterexample: a provider transport error is caught by the
Jina helper, which returns the original results — but `rerank` then
applies its post-rerank `min_score = 0.4` filter to them, returning `[]`
instead of the original results unchanged. -/
theorem rerank_wrapper_c7_counterexample :
    rerankJina c7Results (Except.error ()) = c7Results ∧
    rerankPipeline true c7Results (2/5)
      (some (rerankJina c7Results (Except.error ()))) = [] ∧
    c7Results ≠ [] := by
  refine ⟨rfl, ?_, by decide⟩
  with_unfolding_all decide

/-- Witness for the amended C7: a successful provider response is
filtered by `min_score` on the reranked scores. -/
theorem rerank_wrapper_c7_amended_witness :
    rerankPipeline true
      [{ id := "a", content := "c", score := 1/2, metadata := [] }] (2/5)
      (some (rerankJina
        [{ id := "a", content := "c", score := 1/2, metadata := [] }]
        (Except.ok [(0, 9/10)]))) =
    ((applyProviderEntries
      [{ id := "a", content := "c", score := 1/2, metadata := [] }]
      [(0, 9/10)] []).2.1).filter (fun r => 2/5 ≤ r.score) :=
  ((rerank_wrapper_c7_amended
    [{ id := "a", content := "c", score := 1/2, metadata := [] }]
    (2/5) (Except.ok [(0, 9/10)]) (by decide)).2.2.2) [(0, 9/10)] rfl
    (by with_unfolding_all decide) (by with_unfolding_all decide)
